import Mathlib

/-!
# Verification of the orchid-ls language server core

This file embeds the data model and operations of the orchid-ls language
server (a Rust LSP server for the Orchid language) as Lean definitions and
proves properties of them.

Conventions of the embedding:

* Rust `String` values are modelled as `List Char`.  Offsets into document
  text count `Char`s; for ASCII text this coincides with the Rust byte
  offsets the source manipulates, and none of the properties below depends
  on multi-byte encodings.
* Functions that can panic in Rust (`unwrap`, `assert!`, slicing at an
  invalid index) return `Option`, with `none` standing for a panic.
* Machine integers that are only compared (`u64` versions, lengths) are
  `Nat`; the one place the source casts a `usize` to `i32`
  (`WorkspaceCtx::get_wsp`) models the cast explicitly.
-/

namespace OrchidLs

/-! ## FileUri (src/server/src/protocol/document.rs)

`FileUri` stores the canonical inner string of a `file:///` URI, without
the scheme, without a trailing slash and without a trailing `.orc`
suffix.  We model the inner string as a `List Char`. -/

/-- The inner canonical string of a `FileUri` (`FileUri(Arc<String>)`). -/
abbrev FileUri := List Char

/-- Split a character list on a separator character, mirroring Rust
`str::split`: splitting the empty string yields `[""]` and separators at
the ends produce empty segments. -/
def splitSep (sep : Char) : List Char → List (List Char)
  | [] => [[]]
  | c :: rest =>
    if c = sep then [] :: splitSep sep rest
    else
      match splitSep sep rest with
      | [] => [[c]]
      | l :: ls => (c :: l) :: ls

/-- `FileUri::to_vpath` (document.rs lines 61-68): strip `pre` from the
raw inner string as a byte prefix; an empty remainder is the empty path;
otherwise the remainder must begin with `/` and is split on `/` into
segments. -/
def FileUri.to_vpath (self pre : FileUri) : Option (List (List Char)) :=
  match List.dropPrefix? self pre with
  | none => none
  | some rest =>
    if rest = [] then some []
    else
      match rest with
      | '/' :: rest' => some (splitSep '/' rest')
      | _ => none

/-- `FileUri::extended` (document.rs lines 70-72): append segments, each
preceded by `/`. -/
def FileUri.extended (self : FileUri) (segments : List (List Char)) : FileUri :=
  segments.foldl (fun s seg => s ++ '/' :: seg) self

/-- Value of one hexadecimal digit character. -/
def hexVal (c : Char) : Option Nat :=
  if '0' ≤ c ∧ c ≤ '9' then some (c.toNat - '0'.toNat)
  else if 'a' ≤ c ∧ c ≤ 'f' then some (c.toNat - 'a'.toNat + 10)
  else if 'A' ≤ c ∧ c ≤ 'F' then some (c.toNat - 'A'.toNat + 10)
  else none

/-- Percent-decoding of one URI segment (the `urlencoding::decode`
dependency, used by `FileUri::segments`): a `%` followed by two hex digits
becomes the character of the decoded byte, anything else passes through.
(The crate assembles multi-byte UTF-8 sequences from consecutive escapes;
the embedding decodes each escaped byte to the character of the same
code, which agrees with the crate on ASCII escapes.) -/
def percentDecode : List Char → List Char
  | [] => []
  | '%' :: a :: b :: rest =>
    match hexVal a, hexVal b with
    | some ha, some hb => Char.ofNat (16 * ha + hb) :: percentDecode rest
    | _, _ => '%' :: percentDecode (a :: b :: rest)
  | c :: rest => c :: percentDecode rest

/-- `FileUri::segments` (document.rs lines 58-60): split the inner string
on `/` and percent-decode each segment. -/
def FileUri.segments (u : FileUri) : List (List Char) :=
  (splitSep '/' u).map percentDecode

/-- `PartialEq for FileUri` (document.rs lines 90-92): equality of decoded
segments. -/
def FileUri.beq (u v : FileUri) : Bool :=
  u.segments == v.segments

/-! ## PatchStore (src/server/src/cmd/fs.rs lines 33-84)

`PatchFile` is one unsaved buffer; `PatchStore` is the per-workspace
overlay of unsaved buffers. -/

/-- `PatchFile` (fs.rs lines 33-38). -/
structure PatchFile where
  uri : FileUri
  text : List Char
  version : Nat
  deriving DecidableEq

/-- `PatchStore` (fs.rs lines 40-44). -/
structure PatchStore where
  basepath : FileUri
  patches : List PatchFile
  deriving DecidableEq

/-- `PatchStore::index_of` (fs.rs lines 55-57): position of the first
patch whose URI equals the argument (by `FileUri`'s segment equality). -/
def PatchStore.index_of (s : PatchStore) (uri : FileUri) : Option Nat :=
  s.patches.findIdx? (fun f => f.uri.beq uri)

/-- `PatchStore::patch` (fs.rs lines 59-70): if no record for the URI
exists, append; otherwise overwrite text and version only when
`old.version <= patch.version`. -/
def PatchStore.patch (s : PatchStore) (p : PatchFile) : PatchStore :=
  match s.index_of p.uri with
  | none => { s with patches := s.patches ++ [p] }
  | some idx =>
    match s.patches.get? idx with
    | none => s
    | some old =>
      if old.version ≤ p.version then
        { s with
          patches := s.patches.set idx { old with version := p.version, text := p.text } }
      else s

/-- `PatchStore::unpatch` (fs.rs lines 71-78): remove the record for the
URI; its absence is a panic. -/
def PatchStore.unpatch (s : PatchStore) (uri : FileUri) : Option PatchStore :=
  match s.index_of uri with
  | none => none
  | some i => some { s with patches := s.patches.eraseIdx i }

/-- The record a `PatchStore` holds for a URI: the first patch whose URI
matches by `FileUri` equality (observation used to state the `patch`
properties). -/
def PatchStore.find (s : PatchStore) (uri : FileUri) : Option PatchFile :=
  s.patches.find? (fun f => f.uri.beq uri)

theorem FileUri.beq_iff {u v : FileUri} : u.beq v = true ↔ u.segments = v.segments := by
  simp [FileUri.beq]

theorem FileUri.beq_symm {u v : FileUri} (h : u.beq v = true) : v.beq u = true := by
  rw [FileUri.beq_iff] at h ⊢; exact h.symm

theorem FileUri.beq_trans {u v w : FileUri} (h1 : u.beq v = true) (h2 : v.beq w = true) :
    u.beq w = true := by
  rw [FileUri.beq_iff] at h1 h2 ⊢; exact h1.trans h2

/-- Split a list at the index found by `findIdx?`. -/
theorem findIdx?_some_split {α : Type _} {l : List α} {p : α → Bool} {i : Nat}
    (h : l.findIdx? p = some i) :
    ∃ l1 x l2, l = l1 ++ x :: l2 ∧ l1.length = i ∧ p x = true ∧ ∀ y ∈ l1, p y = false := by
  rw [List.findIdx?_eq_some_iff_getElem] at h
  obtain ⟨hi, hp, hj⟩ := h
  refine ⟨l.take i, l[i], l.drop (i + 1), ?_, ?_, hp, ?_⟩
  · conv_lhs => rw [← List.take_append_drop i l]
    rw [List.drop_eq_getElem_cons hi]
  · simp [List.length_take, Nat.le_of_lt hi]
  · intro y hy
    rw [List.mem_take_iff_getElem] at hy
    obtain ⟨j, hj', rfl⟩ := hy
    have := hj j (by omega)
    simpa using this

theorem find?_append_cons {α : Type _} (l1 : List α) (x : α) (l2 : List α) {p : α → Bool}
    (hx : p x = true) (h1 : ∀ y ∈ l1, p y = false) :
    (l1 ++ x :: l2).find? p = some x := by
  induction l1 with
  | nil => simp [hx]
  | cons a as ih =>
    have ha : p a = false := h1 a (by simp)
    simp only [List.cons_append, List.find?_cons, ha]
    exact ih (fun y hy => h1 y (by simp [hy]))

/-! ### Claim C3: PatchStore.patch semantics -/

theorem PatchStore.find_patch_absent (s : PatchStore) (p : PatchFile)
    (h : s.find p.uri = none) :
    (s.patch p).find p.uri = some p ∧ (s.patch p).patches = s.patches ++ [p] := by
  have hidx : s.index_of p.uri = none := by
    rw [PatchStore.index_of, List.findIdx?_eq_none_iff]
    rw [PatchStore.find, List.find?_eq_none] at h
    intro x hx
    simpa using h x hx
  constructor
  · rw [PatchStore.patch, hidx, PatchStore.find]
    rw [PatchStore.find, List.find?_eq_none] at h
    have : ∀ y ∈ s.patches, (fun f => f.uri.beq p.uri) y = false := by
      intro y hy; simpa using h y hy
    have := find?_append_cons s.patches p [] (by simp [FileUri.beq_iff]) this
    simpa using this
  · rw [PatchStore.patch, hidx]

theorem findIdx?_append_cons {α : Type _} {p : α → Bool} (l1 : List α) (x : α) (l2 : List α)
    (hx : p x = true) (h1 : ∀ y ∈ l1, p y = false) :
    (l1 ++ x :: l2).findIdx? p = some l1.length := by
  induction l1 with
  | nil => simp [hx]
  | cons a as ih =>
    have ha : p a = false := h1 a (by simp)
    have := ih (fun y hy => h1 y (by simp [hy]))
    simp only [List.cons_append, List.findIdx?_cons, ha, if_false, List.findIdx?_succ, this]
    rfl

theorem get?_append_cons {α : Type _} (l1 : List α) (x : α) (l2 : List α) :
    (l1 ++ x :: l2).get? l1.length = some x := by
  induction l1 with
  | nil => rfl
  | cons a as ih => simpa using ih

theorem set_append_cons {α : Type _} (l1 : List α) (x y : α) (l2 : List α) :
    (l1 ++ x :: l2).set l1.length y = l1 ++ y :: l2 := by
  induction l1 with
  | nil => rfl
  | cons a as ih => simp [ih]

theorem PatchStore.find_patch_present (s : PatchStore) (p old : PatchFile)
    (h : s.find p.uri = some old) :
    (s.patch p).find p.uri =
      some (if old.version ≤ p.version then { old with version := p.version, text := p.text }
            else old) := by
  rw [PatchStore.find, List.find?_eq_some] at h
  obtain ⟨hpred, l1, l2, hsplit, hfail⟩ := h
  have hfail' : ∀ y ∈ l1, (fun f : PatchFile => f.uri.beq p.uri) y = false :=
    fun y hy => by simpa using hfail y hy
  have hidx : s.index_of p.uri = some l1.length := by
    rw [PatchStore.index_of, hsplit]
    exact findIdx?_append_cons l1 old l2 hpred hfail'
  have hget : s.patches.get? l1.length = some old := by
    rw [hsplit]; exact get?_append_cons l1 old l2
  simp only [PatchStore.patch, hidx, hget]
  by_cases hv : old.version ≤ p.version
  · simp only [if_pos hv]
    rw [PatchStore.find]
    have hset : s.patches.set l1.length { old with version := p.version, text := p.text } =
        l1 ++ { old with version := p.version, text := p.text } :: l2 := by
      rw [hsplit]; exact set_append_cons l1 old _ l2
    rw [hset]
    exact find?_append_cons l1 _ l2 (by simpa using hpred) hfail'
  · simp only [if_neg hv]
    rw [PatchStore.find, hsplit]
    exact find?_append_cons l1 old l2 hpred hfail'

/-- Claim C3: for every PatchStore, `patch p` appends a new record when no
record for `p.uri` exists; when one exists, it overwrites that record's
text and version if and only if `p.version ≥ old.version`; consequently
`patch p` followed by `patch p'` for the same URI with
`p'.version < p.version` leaves the stored text and version equal to
`p`'s (provided no record newer than `p` was already present, so that
`patch p` itself takes effect). -/
theorem patchStore_patch_spec (s : PatchStore) (p p' : PatchFile) :
    (s.find p.uri = none → (s.patch p).find p.uri = some p ∧
      (s.patch p).patches = s.patches ++ [p]) ∧
    (∀ old, s.find p.uri = some old →
      (s.patch p).find p.uri =
        some (if old.version ≤ p.version then { old with version := p.version, text := p.text }
              else old)) ∧
    ((∀ old, s.find p.uri = some old → old.version ≤ p.version) →
      p'.uri.beq p.uri = true → p'.version < p.version →
      ∃ q, ((s.patch p).patch p').find p.uri = some q ∧
        q.text = p.text ∧ q.version = p.version) := by
  refine ⟨PatchStore.find_patch_absent s p, fun old => PatchStore.find_patch_present s p old, ?_⟩
  intro hle huri hv
  -- after `patch p` the stored record has p's text and version
  have step1 : ∃ q, (s.patch p).find p.uri = some q ∧ q.text = p.text ∧ q.version = p.version := by
    cases hfind : s.find p.uri with
    | none =>
      obtain ⟨hf, _⟩ := PatchStore.find_patch_absent s p hfind
      exact ⟨p, hf, rfl, rfl⟩
    | some old =>
      have := PatchStore.find_patch_present s p old hfind
      rw [if_pos (hle old hfind)] at this
      exact ⟨_, this, rfl, rfl⟩
  obtain ⟨q, hq, hqt, hqv⟩ := step1
  -- the second patch finds q via p'.uri (equal to p.uri) and leaves it alone
  have hq' : (s.patch p).find p'.uri = some q := by
    rw [PatchStore.find] at hq ⊢
    have : (fun f : PatchFile => f.uri.beq p'.uri) = (fun f => f.uri.beq p.uri) := by
      funext f
      rcases hb : f.uri.beq p.uri with _ | _
      · rcases hb' : f.uri.beq p'.uri with _ | _
        · rfl
        · exact absurd (FileUri.beq_trans hb' huri) (by simp [hb])
      · simp [FileUri.beq_trans hb (FileUri.beq_symm huri)]
    rw [this]; exact hq
  have := PatchStore.find_patch_present (s.patch p) p' q hq'
  rw [if_neg (by omega)] at this
  -- reading back via p.uri gives the same record
  have hfinal : ((s.patch p).patch p').find p.uri = some q := by
    rw [PatchStore.find] at this ⊢
    have heq : (fun f : PatchFile => f.uri.beq p.uri) = (fun f => f.uri.beq p'.uri) := by
      funext f
      rcases hb : f.uri.beq p'.uri with _ | _
      · rcases hb' : f.uri.beq p.uri with _ | _
        · rfl
        · exact absurd (FileUri.beq_trans hb' (FileUri.beq_symm huri)) (by simp [hb])
      · simp [FileUri.beq_trans hb huri]
    rw [heq]; exact this
  exact ⟨q, hfinal, hqt, hqv⟩

/-- Witness for C3 at a concrete store: an empty store at basepath `w`,
patched with version 2 then version 1 for the same URI, keeps the
version-2 text. -/
theorem patchStore_patch_spec_witness :
    ∃ q, ((PatchStore.patch { basepath := ['w'], patches := [] }
            { uri := ['w', '/', 'a'], text := ['X'], version := 2 }).patch
            { uri := ['w', '/', 'a'], text := ['Y'], version := 1 }).find ['w', '/', 'a'] =
          some q ∧ q.text = ['X'] ∧ q.version = 2 :=
  (patchStore_patch_spec { basepath := ['w'], patches := [] }
    { uri := ['w', '/', 'a'], text := ['X'], version := 2 }
    { uri := ['w', '/', 'a'], text := ['Y'], version := 1 }).2.2
    (by intro old h; simp [PatchStore.find] at h) (by decide) (by decide)

/-! ### Claim C7: FileUri.to_vpath -/

/-- Claim C7: `to_vpath` returns the empty path exactly on equal URIs;
otherwise it succeeds exactly when the match is followed by `/`, yielding
the remainder split on `/`; in particular `/foo` is not treated as a
prefix of `/foobar`. -/
theorem fileUri_to_vpath_spec (u p : FileUri) :
    (u = p → u.to_vpath p = some []) ∧
    (∀ segs, u.to_vpath p = some segs →
      (u = p ∧ segs = []) ∨ ∃ rest, u = p ++ '/' :: rest ∧ segs = splitSep '/' rest) ∧
    (∀ rest, u = p ++ '/' :: rest → u.to_vpath p = some (splitSep '/' rest)) ∧
    FileUri.to_vpath ['f', 'o', 'o', 'b', 'a', 'r'] ['f', 'o', 'o'] = none := by
  refine ⟨?_, ?_, ?_, by decide⟩
  · rintro rfl
    have : List.dropPrefix? u u = some [] := by
      rw [List.dropPrefix?_eq_some_iff]
      exact ⟨u, by simp⟩
    rw [FileUri.to_vpath, this]
    simp
  · intro segs hsegs
    rw [FileUri.to_vpath] at hsegs
    split at hsegs
    · exact absurd hsegs (by simp)
    rename_i rest hdp
    rw [List.dropPrefix?_eq_some_iff] at hdp
    obtain ⟨p', hu, hp'⟩ := hdp
    have hp'' : p' = p := by simpa using hp'
    subst hp''
    split at hsegs
    · rename_i hrest
      subst hrest
      refine Or.inl ⟨by simpa using hu, ?_⟩
      simpa using hsegs.symm
    split at hsegs
    · rename_i rest' _
      exact Or.inr ⟨rest', hu, by simpa using hsegs.symm⟩
    · exact absurd hsegs (by simp)
  · intro rest hu
    have : List.dropPrefix? u p = some ('/' :: rest) := by
      rw [List.dropPrefix?_eq_some_iff]
      exact ⟨p, hu, by simp⟩
    rw [FileUri.to_vpath, this]
    simp

/-- Witness for C7: equal URIs give the empty path, and a true prefix
followed by `/` splits the remainder. -/
theorem fileUri_to_vpath_spec_witness :
    FileUri.to_vpath ['a'] ['a'] = some [] ∧
    FileUri.to_vpath ['a', '/', 'b'] ['a'] = some (splitSep '/' ['b']) :=
  ⟨(fileUri_to_vpath_spec ['a'] ['a']).1 rfl,
   (fileUri_to_vpath_spec ['a', '/', 'b'] ['a']).2.2.1 ['b'] rfl⟩

/-! ## Typed context map (src/server/src/ctx_map.rs)

`CtxMap` keys values by `TypeId`; the embedding keys by a type name.
`CtxMap::set` asserts that no previous value exists for the slot. -/

/-- The values the server stores in its context map; claim C9 only
exercises the trace slot (logging.rs lines 5-9). -/
inductive CtxVal where
  | trace (v : String)
  | workspaces
  deriving DecidableEq

/-- `CtxMap` (ctx_map.rs lines 5-7), a map from type identity to a
value. -/
abbrev CtxMap := List (String × CtxVal)

/-- `CtxMap::set` (ctx_map.rs lines 10-13): insert, then
`assert!(prev.is_none(), "Context cannot be reassigned")`.  The panic is
modelled as `none`. -/
def CtxMap.set (m : CtxMap) (key : String) (v : CtxVal) : Option CtxMap :=
  if (m.find? (fun e => e.1 == key)).isSome then none
  else some ((key, v) :: m)

/-- `TraceValue` parsing inside the `$/setTrace` handler (logging.rs
lines 23-28); an unrecognized value panics. -/
def parseTraceValue (s : String) : Option String :=
  if s = "off" ∨ s = "messages" ∨ s = "verbose" then some s else none

/-- The `$/setTrace` notification handler (logging.rs lines 22-30):
`val` models `params["value"].as_str()` (`none` when the params or the
string are missing, which the handler's `unwrap`s turn into a panic);
the parsed trace value is stored under the `TraceValue` type slot via
`Session::set`, i.e. `CtxMap::set`. -/
def onSetTrace (m : CtxMap) (val : Option String) : Option CtxMap :=
  match val with
  | none => none
  | some s =>
    match parseTraceValue s with
    | none => none
    | some v => m.set "TraceValue" (CtxVal.trace v)

/-! ### Claim C9: a second $/setTrace panics -/

/-- Claim C9: if a `$/setTrace` notification was handled successfully,
handling any further `$/setTrace` notification panics: the handler
unconditionally inserts into the write-once context map, whose `set`
asserts that no previous value exists for the slot. -/
theorem setTrace_second_panics (m m' : CtxMap) (v1 v2 : Option String)
    (h1 : onSetTrace m v1 = some m') :
    onSetTrace m' v2 = none := by
  cases v1 with
  | none => exact absurd h1 (by simp [onSetTrace])
  | some s1 =>
    simp only [onSetTrace] at h1
    cases hp1 : parseTraceValue s1 with
    | none => rw [hp1] at h1; exact absurd h1 (by simp)
    | some w1 =>
      rw [hp1] at h1
      simp only [CtxMap.set] at h1
      split at h1
      · exact absurd h1 (by simp)
      · have hm' : m' = ("TraceValue", CtxVal.trace w1) :: m := by
          simpa using h1.symm
        subst hm'
        cases v2 with
        | none => rfl
        | some s2 =>
          simp only [onSetTrace]
          cases parseTraceValue s2 with
          | none => rfl
          | some w2 => simp [CtxMap.set]

/-- Witness for C9: on an empty context map, handling `$/setTrace` with
value `"off"` twice panics the second time. -/
theorem setTrace_second_panics_witness :
    onSetTrace [] (some "off") = some [("TraceValue", CtxVal.trace "off")] ∧
    onSetTrace [("TraceValue", CtxVal.trace "off")] (some "off") = none :=
  ⟨by decide,
   setTrace_second_panics [] [("TraceValue", CtxVal.trace "off")] (some "off") (some "off")
     (by decide)⟩

/-! ## LSP error codes (src/server/src/protocol/error.rs) -/

/-- `LSPErrCode` (error.rs lines 10-53). -/
inductive LSPErrCode where
  | ParseError
  | InvalidRequest
  | MethodNotFound
  | InvalidParams
  | InternalError
  | ServerNotInitialized
  | Unknown
  | RequestFailed
  | ServerCancelled
  | ContentModified
  | RequestCancelled
  | UnclassifiedError (code : Int)
  deriving DecidableEq

/-- `CODE_MAP` (error.rs lines 56-68). -/
def CODE_MAP : List (LSPErrCode × Int) :=
  [(.ParseError, -32700),
   (.InvalidRequest, -32600),
   (.MethodNotFound, -32601),
   (.InvalidParams, -32602),
   (.InternalError, -32603),
   (.ServerNotInitialized, -32002),
   (.Unknown, -32001),
   (.RequestFailed, -32803),
   (.ServerCancelled, -32802),
   (.ContentModified, -32801),
   (.RequestCancelled, -32800)]

/-- `From<LSPErrCode> for i64` (error.rs lines 73-80); the `unwrap` on a
code absent from the table is a panic, modelled as `none`. -/
def lspCodeToInt : LSPErrCode → Option Int
  | .UnclassifiedError code => some code
  | e =>
    match CODE_MAP.find? (fun p => p.1 == e) with
    | some p => some p.2
    | none => none

/-! ## JSON-RPC dispatch (src/server/src/jrpc.rs lines 216-265)

The embedding captures `JrpcServer::recv`'s branch structure: which
handler kind is chosen for an incoming message, and what response (if
any) is sent.  Handler registries are modelled by their registered method
names; the message by its `id`, `method` and (for `$/cancelRequest`) its
`params.id` field. -/

/-- The three handler registries of `JrpcServer` (jrpc.rs lines
187-192), by registered method name. -/
structure JrpcHandlers where
  syncHands : List String
  asyncHands : List String
  notifHands : List String

/-- An incoming message, reduced to the fields `recv` inspects:
`id` (`none` when absent), `method` (`none` when absent), and the `id`
inside the params (`none` when missing), which only `$/cancelRequest`
reads. -/
structure IncomingMsg where
  id : Option Int
  method : Option String
  paramsId : Option Int

/-- The observable outcome of one `JrpcServer::recv` call. -/
inductive RecvAction where
  | handleResp
  | notifRun (name : String)
  | notifUnknown (name : String)
  | cancelSignal (cancelId : Int)
  | syncRun (name : String) (id : Int)
  | asyncRun (name : String) (id : Int)
  | respondError (id : Int) (code : LSPErrCode)
  | panicked
  deriving DecidableEq

/-- `JrpcServer::recv` (jrpc.rs lines 216-265): dispatch an incoming
message.  A message without a method is a response; a message without an
id is a notification; `$/cancelRequest` is handled inline; then sync and
async registries are consulted; an unknown method starting with `$/` is
answered with a `MethodNotFound` error response; any other unknown
method panics. -/
def JrpcHandlers.recv (h : JrpcHandlers) (msg : IncomingMsg) : RecvAction :=
  match msg.method with
  | none => .handleResp
  | some name =>
    match msg.id with
    | none =>
      if name ∈ h.notifHands then .notifRun name else .notifUnknown name
    | some id =>
      if name = "$/cancelRequest" then
        match msg.paramsId with
        | none => .panicked
        | some cancelId => .cancelSignal cancelId
      else if name ∈ h.syncHands then .syncRun name id
      else if name ∈ h.asyncHands then .asyncRun name id
      else if "$/".toList.isPrefixOf name.toList then .respondError id .MethodNotFound
      else .panicked

/-! ### Claim C8: unknown $/ requests get MethodNotFound -/

/-- Counterexample to C8 as stated: `$/cancelRequest` is never registered
in any handler registry and starts with `$/`, yet a request with that
method and an id is answered by signalling the ingress abort token, not
by a `MethodNotFound` error response. -/
theorem recv_unknown_dollar_counterexample :
    JrpcHandlers.recv ⟨[], [], []⟩ ⟨some 1, some "$/cancelRequest", some 0⟩ =
      RecvAction.cancelSignal 0 ∧
    RecvAction.cancelSignal 0 ≠ RecvAction.respondError 1 LSPErrCode.MethodNotFound ∧
    "$/".toList.isPrefixOf "$/cancelRequest".toList = true := by
  refine ⟨rfl, by simp, ?_⟩
  decide

/-- Claim C8 as amended: for every incoming request that carries an id,
whose method name is not registered in any handler registry, is not the
built-in `$/cancelRequest`, and starts with `$/`, the server sends an
error response whose code is `MethodNotFound`, which serializes to
`-32601`. -/
theorem recv_unknown_dollar_method_not_found (h : JrpcHandlers) (msg : IncomingMsg)
    (i : Int) (m : String)
    (hid : msg.id = some i) (hm : msg.method = some m)
    (hs : m ∉ h.syncHands) (ha : m ∉ h.asyncHands) (_hn : m ∉ h.notifHands)
    (hc : m ≠ "$/cancelRequest") (hd : "$/".toList.isPrefixOf m.toList = true) :
    h.recv msg = RecvAction.respondError i LSPErrCode.MethodNotFound ∧
    lspCodeToInt LSPErrCode.MethodNotFound = some (-32601) := by
  refine ⟨?_, by decide⟩
  rw [JrpcHandlers.recv, hm, hid]
  simp only [if_neg hc, if_neg hs, if_neg ha, hd, if_true]

/-- Witness for the amended C8: an unregistered request `$/nonsense`
with id 7 is answered with error code `MethodNotFound` / `-32601`. -/
theorem recv_unknown_dollar_method_not_found_witness :
    JrpcHandlers.recv ⟨["initialize"], [], ["exit"]⟩ ⟨some 7, some "$/nonsense", none⟩ =
      RecvAction.respondError 7 LSPErrCode.MethodNotFound ∧
    lspCodeToInt LSPErrCode.MethodNotFound = some (-32601) :=
  recv_unknown_dollar_method_not_found ⟨["initialize"], [], ["exit"]⟩
    ⟨some 7, some "$/nonsense", none⟩ 7 "$/nonsense" rfl rfl
    (by decide) (by decide) (by decide) (by decide) (by decide)

/-! ## Semantic token splitting (src/server/src/protocol/tokens.rs)

A `SemToken` is a classified source range; `SemToken::split` cuts a
token whose span contains a newline into single-line pieces.  Only the
range evolves during splitting (the type tag is copied unchanged), so
the embedding works on `(start, end)` ranges over the source text. -/

/-- `str::find('\n')`: index of the first newline. -/
def findNl (l : List Char) : Option Nat := l.findIdx? (fun c => c = '\n')

/-- The span `text[s..e]` of the source text. -/
def sliceChars (text : List Char) (s e : Nat) : List Char := (text.drop s).take (e - s)

theorem findNl_lt_length {l : List Char} {k : Nat} (h : findNl l = some k) : k < l.length := by
  rw [findNl, List.findIdx?_eq_some_iff_getElem] at h
  exact h.1

theorem sliceChars_length_le (text : List Char) (s e : Nat) :
    (sliceChars text s e).length ≤ e - s := by
  simp [sliceChars]

/-- `SemToken::split` (tokens.rs lines 29-40) acting on the token's
range: no newline in the span keeps the token; a newline at the start of
the span strips that one newline without recursing; a later newline cuts
the span at it and recursively splits the remainder after the newline. -/
def splitTok (text : List Char) (s e : Nat) : List (Nat × Nat) :=
  match h : findNl (sliceChars text s e) with
  | none => [(s, e)]
  | some 0 => [(s + 1, e)]
  | some (sp + 1) => (s, s + sp + 1) :: splitTok text (s + sp + 2) e
termination_by e - s
decreasing_by
  have h1 := findNl_lt_length h
  have h2 := sliceChars_length_le text s e
  omega

/-- Modelled from the spec: the per-line sub-spans of `text[s..e]`, i.e.
the span cut at every newline with the newline characters themselves
excluded (before dropping empty sub-spans).  This is the spec's
description of what `split` produces, stated independently of the
source, for comparison with `splitTok`. -/
def lineSubspans (text : List Char) (s e : Nat) : List (Nat × Nat) :=
  match h : findNl (sliceChars text s e) with
  | none => [(s, e)]
  | some k => (s, s + k) :: lineSubspans text (s + k + 1) e
termination_by e - s
decreasing_by
  have h1 := findNl_lt_length h
  have h2 := sliceChars_length_le text s e
  omega

theorem splitTok_none {text : List Char} {s e : Nat}
    (h : findNl (sliceChars text s e) = none) : splitTok text s e = [(s, e)] := by
  rw [splitTok.eq_def, h]

theorem splitTok_zero {text : List Char} {s e : Nat}
    (h : findNl (sliceChars text s e) = some 0) : splitTok text s e = [(s + 1, e)] := by
  rw [splitTok.eq_def, h]

theorem splitTok_succ {text : List Char} {s e sp : Nat}
    (h : findNl (sliceChars text s e) = some (sp + 1)) :
    splitTok text s e = (s, s + sp + 1) :: splitTok text (s + sp + 2) e := by
  rw [splitTok.eq_def, h]

theorem lineSubspans_none {text : List Char} {s e : Nat}
    (h : findNl (sliceChars text s e) = none) : lineSubspans text s e = [(s, e)] := by
  rw [lineSubspans.eq_def, h]

theorem lineSubspans_some {text : List Char} {s e k : Nat}
    (h : findNl (sliceChars text s e) = some k) :
    lineSubspans text s e = (s, s + k) :: lineSubspans text (s + k + 1) e := by
  rw [lineSubspans.eq_def, h]

theorem lineSubspans_ne_nil (text : List Char) (s e : Nat) : lineSubspans text s e ≠ [] := by
  cases h : findNl (sliceChars text s e) with
  | none => rw [lineSubspans_none h]; simp
  | some k => rw [lineSubspans_some h]; simp

/-- The side condition under which `split` produces exactly the per-line
sub-spans with empties dropped: every empty sub-span must be the
second-to-last one, immediately followed by a final nonempty sub-span.
(An empty sub-span elsewhere ends the recursion early or survives the
split, see the counterexample.) -/
def emptiesPenultimate : List (Nat × Nat) → Bool
  | [] => true
  | (a, b) :: [] => decide (a < b)
  | (a, b) :: r :: rest =>
    if a = b then rest.isEmpty && decide (r.1 < r.2)
    else emptiesPenultimate (r :: rest)

/-! ### Claim C6: SemToken.split -/

/-- Counterexample to C6 as stated: splitting the range `0..3` over the
text `"ab\nc"` yields the sub-spans `0..2` and `3..3`; the empty
sub-span `3..3` (the token ends with the newline) is *not* dropped,
contrary to the claim that empty sub-spans are dropped. -/
theorem semToken_split_counterexample :
    splitTok "ab\nc".toList 0 3 = [(0, 2), (3, 3)] ∧
    ((lineSubspans "ab\nc".toList 0 3).filter fun r => decide (r.1 < r.2)) = [(0, 2)] ∧
    [((0 : Nat), (2 : Nat)), (3, 3)] ≠ [(0, 2)] := by
  refine ⟨?_, ?_, by simp⟩
  · simp [splitTok, findNl, sliceChars]
  · simp [lineSubspans, findNl, sliceChars]

/-- Claim C6 as amended: `split` replaces a token whose source span
contains a newline with the sequence of per-line sub-spans excluding the
newline characters themselves, with empty sub-spans dropped, *provided*
every empty per-line sub-span of the token is the second-to-last one and
is followed by a nonempty final sub-span (in particular this covers the
spec's example `2..12` over `"foo\nbar\n\nbaz"`, where the empty line
sits directly before the final line).  Tokens ending in a newline, or
containing an empty line earlier, leave that description (see the
counterexample). -/
theorem semToken_split_spec (text : List Char) (s e : Nat)
    (_hse : s ≤ e) (_hlen : e ≤ text.length)
    (hok : emptiesPenultimate (lineSubspans text s e) = true) :
    splitTok text s e = (lineSubspans text s e).filter fun r => decide (r.1 < r.2) := by
  clear _hse _hlen
  induction s, e using splitTok.induct text with
  | case1 s e h =>
    rw [splitTok_none h]
    rw [lineSubspans_none h] at hok ⊢
    have hs : s < e := by simpa [emptiesPenultimate] using hok
    simp [hs]
  | case2 s e h =>
    rw [splitTok_zero h]
    rw [lineSubspans_some h] at hok ⊢
    simp only [Nat.add_zero] at hok ⊢
    -- the tail of the sub-span list must be a single nonempty span
    rcases htail : lineSubspans text (s + 1) e with _ | ⟨r, rest⟩
    · exact absurd htail (lineSubspans_ne_nil text _ e)
    rw [htail] at hok
    have hok' : rest = [] ∧ r.1 < r.2 := by
      simpa [emptiesPenultimate] using hok
    obtain ⟨hrest, hr⟩ := hok'
    subst hrest
    -- identify the single span: the remainder contains no further newline
    rcases h2 : findNl (sliceChars text (s + 1) e) with _ | k
    · rw [lineSubspans_none h2] at htail
      have hr' : r = (s + 1, e) := by simpa using htail.symm
      subst hr'
      simp only [decide_eq_true_eq] at hr
      simp [List.filter_cons, hr]
    · rw [lineSubspans_some h2] at htail
      simp only [List.cons.injEq] at htail
      exact absurd htail.2 (lineSubspans_ne_nil text _ e)
  | case3 s e sp h ih =>
    rw [splitTok_succ h]
    rw [lineSubspans_some h] at hok ⊢
    rcases htail : lineSubspans text (s + (sp + 1) + 1) e with _ | ⟨r, rest⟩
    · exact absurd htail (lineSubspans_ne_nil text _ e)
    rw [htail] at hok
    have hne : ¬s = s + (sp + 1) := by omega
    simp only [emptiesPenultimate, if_neg hne] at hok
    have hlt : s < s + (sp + 1) := by omega
    have harith : s + (sp + 1) + 1 = s + sp + 2 := by omega
    rw [harith] at htail
    have := ih (by rw [htail]; exact hok)
    rw [this, htail]
    simp only [List.filter_cons, decide_eq_true_eq, if_pos hlt]
    rfl

/-- Witness for C6 (the spec's own example): splitting `2..12` over
`"foo\nbar\n\nbaz"` yields exactly `2..3`, `4..7` and `9..12`. -/
theorem semToken_split_spec_witness :
    splitTok "foo\nbar\n\nbaz".toList 2 12 = [(2, 3), (4, 7), (9, 12)] := by
  have h := semToken_split_spec "foo\nbar\n\nbaz".toList 2 12 (by norm_num)
    (by simp) (by simp [lineSubspans, findNl, sliceChars, emptiesPenultimate])
  rw [h]
  simp [lineSubspans, findNl, sliceChars]

/-! ## DocPos codec (src/server/src/protocol/docpos.rs)

Both converters sort the input by its key once and then scan the
document line by line, consuming input points in order.  The source's
`sorted_unstable_by_key` is modelled with insertion sort; the two agree
up to the relative order of equal keys, which none of the proved
properties depends on (they compare multisets of outputs).  The
functions return `none` where the Rust code panics. -/

/-- `DocPos` (docpos.rs lines 7-11); the derived `Ord` is lexicographic
on `(line, char)`. -/
structure DocPos where
  line : Nat
  char : Nat
  deriving DecidableEq

/-- `char::len_utf16`. -/
def utf16Len (c : Char) : Nat := if c.toNat < 65536 then 1 else 2

/-- `char::len_utf8`. -/
def utf8Len (c : Char) : Nat := c.utf8Size

/-- Byte length of a string (Rust `str::len`). -/
def byteLen (l : List Char) : Nat := (l.map utf8Len).sum

/-- UTF-16 code-unit length of a string. -/
def utf16Sum (l : List Char) : Nat := (l.map utf16Len).sum

/-- The derived lexicographic `≤` on `DocPos`, lifted to keyed pairs:
the comparison `sorted_unstable_by_key(|p| p.0)` sorts by. -/
def dposKeyLe {α : Type _} (x y : DocPos × α) : Prop :=
  x.1.line < y.1.line ∨ (x.1.line = y.1.line ∧ x.1.char ≤ y.1.char)

instance {α : Type _} : DecidableRel (@dposKeyLe α) := fun x y => by
  unfold dposKeyLe; infer_instance

/-- `≤` on offset-keyed pairs, for `bpos2docpos`'s sort. -/
def offKeyLe {α : Type _} (x y : Nat × α) : Prop := x.1 ≤ y.1

instance {α : Type _} : DecidableRel (@offKeyLe α) := fun x y => by
  unfold offKeyLe; infer_instance

/-- The character loop of `docpos2bpos` (docpos.rs lines 31-65) over one
line.  State: `lineI` is the line index, `plb` the bytes of previous
lines (`prev_lines_bytes`), `u16` and `lb` the UTF-16 and byte cursors
within the line (`u16cp`, `line_bytes`), `cur` the current input point
and `rest` the remaining sorted input.  Returns the emitted
`(byte offset, payload)` pairs and the input left for later lines
(`none` when the input was exhausted, Rust's `break 'outer`); a `none`
result is the `"Points inside a utf-16 codepoint"` assert panic.  When
`cur` is not on this line the source's loop idles over the remaining
characters; the embedding returns immediately, which emits the same
output. -/
def d2bLine {α : Type _} (lineI plb : Nat) (u16 lb : Nat) (cur : DocPos × α)
    (rest : List (DocPos × α)) :
    List Char → Option (List (Nat × α) × Option ((DocPos × α) × List (DocPos × α)))
  | [] => some ([], some (cur, rest))
  | c :: cs =>
    if cur.1.line = lineI then
      if u16 ≤ cur.1.char then
        if u16 = cur.1.char then
          let bpos := plb + lb
          let dups := rest.takeWhile (fun p => p.1 == cur.1)
          let rest' := rest.dropWhile (fun p => p.1 == cur.1)
          let em := (bpos, cur.2) :: dups.map (fun p => (bpos, p.2))
          match rest' with
          | [] => some (em, none)
          | nc :: nr =>
            (d2bLine lineI plb (u16 + utf16Len c) (lb + utf8Len c) nc nr cs).map
              (fun q => (em ++ q.1, q.2))
        else
          d2bLine lineI plb (u16 + utf16Len c) (lb + utf8Len c) cur rest cs
      else none
    else some ([], some (cur, rest))

/-- The line loop of `docpos2bpos` (docpos.rs lines 31-67): after each
line, `prev_lines_bytes` grows by the line's byte length plus one for
the newline.  When the lines run out with input still pending the
pending points are dropped and the accumulated output returned. -/
def d2bLines {α : Type _} (lineI plb : Nat) (cur : DocPos × α) (rest : List (DocPos × α)) :
    List (List Char) → Option (List (Nat × α))
  | [] => some []
  | l :: ls =>
    match d2bLine lineI plb 0 0 cur rest l with
    | none => none
    | some (em, none) => some em
    | some (em, some (c', r')) =>
      match d2bLines (lineI + 1) (plb + byteLen l + 1) c' r' ls with
      | none => none
      | some em2 => some (em ++ em2)

/-- `docpos2bpos` (docpos.rs lines 25-69): reject `\r`, sort the input
by position, take the first point (panic when there is none) and scan
the `\n`-split lines. -/
def docpos2bpos {α : Type _} (input : List (DocPos × α)) (text : List Char) :
    Option (List (Nat × α)) :=
  if text.contains '\r' then none
  else
    match List.insertionSort dposKeyLe input with
    | [] => none
    | cur :: rest => d2bLines 0 0 cur rest (splitSep '\n' text)

/-- `line[..k]`: the characters of `line` spanning exactly the first `k`
bytes, `none` when `k` is not a character boundary or exceeds the line
(Rust string slicing panics there). -/
def takeBytes : List Char → Nat → Option (List Char)
  | _, 0 => some []
  | [], _ + 1 => none
  | c :: cs, k + 1 =>
    if utf8Len c ≤ k + 1 then (takeBytes cs (k + 1 - utf8Len c)).map (fun l => c :: l)
    else none

/-- The while loop of `bpos2docpos` (docpos.rs lines 83-100) over one
line, after the current point was emitted at `pos`: each further input
element is checked against the `"Not sorted!"` assert, emitted at the
same position when it repeats the offset `curOff`, processed on this
line when it falls before the line's end, or returned for later lines.
`bytes` is the byte offset of the line start, `lb` the line's byte
length.  `none` is a panic (unsorted input or slicing off a character
boundary). -/
def b2dGo {α : Type _} (lineI bytes lb : Nat) (line : List Char) (pos : DocPos)
    (curOff : Nat) :
    List (Nat × α) → Option (List (DocPos × α) × Option ((Nat × α) × List (Nat × α)))
  | [] => some ([], none)
  | c :: r =>
    if c.1 < curOff then none
    else if c.1 = curOff then
      (b2dGo lineI bytes lb line pos curOff r).map (fun q => ((pos, c.2) :: q.1, q.2))
    else if c.1 < bytes + lb + 1 then
      if bytes ≤ c.1 then
        match takeBytes line (c.1 - bytes) with
        | none => none
        | some pre =>
          let pos' := DocPos.mk lineI (utf16Sum pre)
          (b2dGo lineI bytes lb line pos' c.1 r).map (fun q => ((pos', c.2) :: q.1, q.2))
      else none
    else some ([], some (c, r))

/-- Entry into one line of `bpos2docpos` (docpos.rs lines 83-100): the
while condition for the pending point, the (never-failing)
`"Skipped over index"` assert, and the first emission on this line. -/
def b2dLine {α : Type _} (lineI bytes : Nat) (line : List Char) (cur : Nat × α)
    (rest : List (Nat × α)) :
    Option (List (DocPos × α) × Option ((Nat × α) × List (Nat × α))) :=
  if cur.1 < bytes + byteLen line + 1 then
    if bytes ≤ cur.1 then
      match takeBytes line (cur.1 - bytes) with
      | none => none
      | some pre =>
        let pos := DocPos.mk lineI (utf16Sum pre)
        (b2dGo lineI bytes (byteLen line) line pos cur.1 rest).map
          (fun q => ((pos, cur.2) :: q.1, q.2))
    else none
  else some ([], some (cur, rest))

/-- The line loop of `bpos2docpos` (docpos.rs lines 82-102). -/
def b2dLines {α : Type _} (lineI bytes : Nat) (cur : Nat × α) (rest : List (Nat × α)) :
    List (List Char) → Option (List (DocPos × α))
  | [] => some []
  | l :: ls =>
    match b2dLine lineI bytes l cur rest with
    | none => none
    | some (em, none) => some em
    | some (em, some (c', r')) =>
      match b2dLines (lineI + 1) (bytes + byteLen l + 1) c' r' ls with
      | none => none
      | some em2 => some (em ++ em2)

/-- `bpos2docpos` (docpos.rs lines 76-104): reject `\r`, sort the input
by offset, take the first point (panic when there is none) and scan the
`\n`-split lines. -/
def bpos2docpos {α : Type _} (input : List (Nat × α)) (text : List Char) :
    Option (List (DocPos × α)) :=
  if text.contains '\r' then none
  else
    match List.insertionSort offKeyLe input with
    | [] => none
    | cur :: rest => b2dLines 0 0 cur rest (splitSep '\n' text)

/-! ### Claim C5: offsets past end-of-file -/

/-- Total byte budget of a line list: each line's bytes plus one for its
newline. -/
def linesBudget (ls : List (List Char)) : Nat := (ls.map (fun l => byteLen l + 1)).sum

theorem splitSep_ne_nil (sep : Char) (l : List Char) : splitSep sep l ≠ [] := by
  cases l with
  | nil => simp [splitSep]
  | cons c rest =>
    rw [splitSep]
    by_cases h : c = sep
    · simp [h]
    · rw [if_neg h]
      cases splitSep sep rest <;> simp

theorem linesBudget_cons (l : List Char) (ls : List (List Char)) :
    linesBudget (l :: ls) = (byteLen l + 1) + linesBudget ls := by
  simp [linesBudget]

theorem byteLen_cons (c : Char) (l : List Char) :
    byteLen (c :: l) = utf8Len c + byteLen l := by
  simp [byteLen]

theorem linesBudget_splitSep (text : List Char) :
    linesBudget (splitSep '\n' text) = byteLen text + 1 := by
  induction text with
  | nil => rfl
  | cons c rest ih =>
    rw [splitSep]
    by_cases h : c = '\n'
    · subst h
      rw [if_pos rfl, linesBudget_cons, ih, byteLen_cons]
      have h8 : utf8Len '\n' = 1 := by decide
      rw [h8]
      have hb : byteLen ([] : List Char) = 0 := rfl
      rw [hb]
      omega
    · rw [if_neg h]
      rcases hsp : splitSep '\n' rest with _ | ⟨l, ls⟩
      · exact absurd hsp (splitSep_ne_nil '\n' rest)
      · rw [hsp] at ih
        rw [linesBudget_cons] at ih
        rw [linesBudget_cons, byteLen_cons, byteLen_cons]
        omega

/-- Lines are simply skipped while the pending offset lies at or past
each line's end-of-budget. -/
theorem b2dLines_all_past {α : Type _} (ls : List (List Char)) (lineI bytes : Nat)
    (cur : Nat × α) (rest : List (Nat × α)) (h : bytes + linesBudget ls ≤ cur.1) :
    b2dLines lineI bytes cur rest ls = some [] := by
  induction ls generalizing lineI bytes with
  | nil => rfl
  | cons l ls ih =>
    rw [b2dLines]
    rw [linesBudget_cons] at h
    have hline : b2dLine lineI bytes l cur rest = some ([], some (cur, rest)) := by
      rw [b2dLine, if_neg (by omega)]
    rw [hline]
    have hrec := ih (lineI + 1) (bytes + byteLen l + 1) (by omega)
    simp [hrec]

/-- Counterexample to C5 as stated: the byte offset 10 lies past the end
of `"foo"` (3 bytes), yet `bpos2docpos` does not panic: it returns the
empty output, silently dropping the offset. -/
theorem bpos2docpos_past_end_counterexample :
    byteLen "foo".toList < 10 ∧
    bpos2docpos [((10 : Nat), (0 : Nat))] "foo".toList = some [] := by
  constructor
  · decide
  · decide

/-- Claim C5 as amended: for every carriage-return-free text and every
nonempty input collection whose byte offsets all lie strictly past the
end of the text, `bpos2docpos` does not panic but returns the empty
output list, silently dropping the offsets.  (It panics on an empty
input collection instead, see `transcription_empty_guard`; offsets up to
and including the text length are mapped.) -/
theorem bpos2docpos_past_end_spec {α : Type _} (text : List Char) (input : List (Nat × α))
    (hr : text.contains '\r' = false) (hne : input ≠ [])
    (hpast : ∀ p ∈ input, byteLen text < p.1) :
    bpos2docpos input text = some [] := by
  rw [bpos2docpos, if_neg (by rw [hr]; simp)]
  have hperm := List.perm_insertionSort (@offKeyLe α) input
  rcases hsort : List.insertionSort offKeyLe input with _ | ⟨cur, rest⟩
  · rw [hsort] at hperm
    exact absurd (hperm.symm.eq_nil) hne
  · rw [hsort] at hperm
    have hcur : byteLen text < cur.1 := hpast cur (hperm.mem_iff.mp (by simp))
    exact b2dLines_all_past _ 0 0 cur rest
      (by rw [linesBudget_splitSep]; omega)

/-- Witness for the amended C5 at the counterexample input. -/
theorem bpos2docpos_past_end_spec_witness :
    bpos2docpos [((10 : Nat), (0 : Nat))] "foo".toList = some [] :=
  bpos2docpos_past_end_spec "foo".toList [(10, 0)] (by decide) (by decide)
    (by decide)

/-! ## Token transcription and its pipeline guard
(src/server/src/protocol/tokens.rs lines 48-74, src/server/src/cmd/fs.rs
lines 232-239) -/

/-- A semantically classified source region (`SemToken`, tokens.rs lines
12-15), reduced to its range and type tag; the embedding keeps the
source text external (the Rust `SourceRange` carries it along). -/
structure SemToken where
  s : Nat
  e : Nat
  typ : String
  deriving DecidableEq

/-- Lexicographic `≤` on the `(token index, side)` tags carried through
`bpos2docpos` by `SemToken::vscode`. -/
def tagKeyLe {γ : Type _} (x y : γ × (Nat × Nat)) : Prop :=
  x.2.1 < y.2.1 ∨ (x.2.1 = y.2.1 ∧ x.2.2 ≤ y.2.2)

instance {γ : Type _} : DecidableRel (@tagKeyLe γ) := fun x y => by
  unfold tagKeyLe; infer_instance

/-- `Itertools::tuples::<(_, _)>()`: adjacent pairs, dropping a trailing
unpaired element. -/
def toPairs {β : Type _} : List β → List (β × β)
  | a :: b :: rest => (a, b) :: toPairs rest
  | _ => []

/-- `SemToken::vscode` (tokens.rs lines 48-74), the target of the
pipeline's `transcode_tokens` import (the thin wrapper of that name is
absent from the snapshot; it supplies the source text that `vscode`
reads off the tokens' shared `SourceCode`, so the embedding takes `src`
as a parameter).  Steps: split every token per line; when no token
remains the `expect` panics; tag each range end with
`(token index, side)`; convert the ends to document positions; re-sort
by tag; re-pair; compute UTF-16 lengths; sort by start position.
`zip_eq` panics when the pairing loses an element. -/
def transcode_tokens (tokens : List SemToken) (src : List Char) :
    Option (List (DocPos × Nat × SemToken)) :=
  let toks := tokens.flatMap (fun t =>
    (splitTok src t.s t.e).map (fun r => SemToken.mk r.1 r.2 t.typ))
  match toks with
  | [] => none
  | _ :: _ =>
    let halves := toks.enum.flatMap (fun p => [(p.2.s, (p.1, 0)), (p.2.e, (p.1, 1))])
    match bpos2docpos halves src with
    | none => none
    | some out =>
      let pairs := toPairs (List.insertionSort tagKeyLe out)
      if pairs.length = toks.length then
        some (List.insertionSort dposKeyLe
          ((pairs.zip toks).map (fun q =>
            (q.1.1.1, q.1.2.1.char - q.1.1.1.char, q.2))))
      else none

/-- `ttypes()` (fs.rs lines 18-31), the fixed token legend. -/
def ttypes : List String :=
  ["namespace", "variable", "parameter", "function", "macro", "comment", "operator",
   "string", "number", "keyword"]

/-- The per-file token step of `process_update`'s Phase 2 (fs.rs lines
232-239): the transcription is invoked only when the token list is
nonempty; its output is flattened to
`(line, char, length, type index)` records. -/
def phase2FileTokens (tokens : List SemToken) (src : List Char) :
    Option (List (Nat × Nat × Nat × Option Nat)) :=
  match tokens.isEmpty with
  | true => some []
  | false =>
    match transcode_tokens tokens src with
    | none => none
    | some l =>
      some (l.map (fun q =>
        (q.1.line, q.1.char, q.2.1, ttypes.findIdx? (fun x => x == q.2.2.typ))))

/-! ### Claim C4: the DocPos/byte-offset round trip

Reference notions for the round-trip: which document positions are *in
bounds* (they address a UTF-16 boundary strictly inside an existing
line), and the byte offset such a position denotes. -/

/-- The byte offset within a line of the UTF-16 code-unit position `c`:
bytes of the shortest character prefix covering `c` code units. -/
def charToByte : List Char → Nat → Nat
  | _, 0 => 0
  | [], _ + 1 => 0
  | ch :: rest, c + 1 => utf8Len ch + charToByte rest (c + 1 - utf16Len ch)

/-- A position is in bounds when its line exists and its character is a
UTF-16 boundary strictly before the line's end. -/
def inBoundsPos (text : List Char) (p : DocPos) : Bool :=
  match (splitSep '\n' text).get? p.line with
  | none => false
  | some line => (List.range line.length).any (fun k => utf16Sum (line.take k) == p.char)

/-- The byte offset denoted by an in-bounds position. -/
def docposToOff (text : List Char) (p : DocPos) : Nat :=
  linesBudget ((splitSep '\n' text).take p.line) +
    charToByte (((splitSep '\n' text).get? p.line).getD []) p.char

theorem utf16Len_pos (c : Char) : 1 ≤ utf16Len c := by
  rw [utf16Len]; split <;> omega

theorem utf8Len_pos (c : Char) : 1 ≤ utf8Len c := Char.utf8Size_pos c

theorem utf16Sum_cons (c : Char) (l : List Char) :
    utf16Sum (c :: l) = utf16Len c + utf16Sum l := by simp [utf16Sum]

theorem byteLen_append (l1 l2 : List Char) :
    byteLen (l1 ++ l2) = byteLen l1 + byteLen l2 := by simp [byteLen]

theorem utf16Sum_append (l1 l2 : List Char) :
    utf16Sum (l1 ++ l2) = utf16Sum l1 + utf16Sum l2 := by simp [utf16Sum]

theorem utf16Sum_take_succ {l : List Char} {k : Nat} (hk : k < l.length) :
    utf16Sum (l.take (k + 1)) = utf16Sum (l.take k) + utf16Len l[k] := by
  rw [List.take_succ, utf16Sum_append]
  simp [List.getElem?_eq_getElem hk, utf16Sum]

theorem byteLen_take_succ {l : List Char} {k : Nat} (hk : k < l.length) :
    byteLen (l.take (k + 1)) = byteLen (l.take k) + utf8Len l[k] := by
  rw [List.take_succ, byteLen_append]
  simp [List.getElem?_eq_getElem hk, byteLen]

theorem utf16Sum_take_le_of_le {l : List Char} {k k' : Nat} (h : k ≤ k') :
    utf16Sum (l.take k) ≤ utf16Sum (l.take k') := by
  have h1 : (l.take k').take k = l.take k := by
    rw [List.take_take, Nat.min_eq_left h]
  calc utf16Sum (l.take k) = utf16Sum ((l.take k').take k) := by rw [h1]
    _ ≤ utf16Sum ((l.take k').take k) + utf16Sum ((l.take k').drop k) := Nat.le_add_right _ _
    _ = utf16Sum (l.take k') := by rw [← utf16Sum_append, List.take_append_drop]

theorem utf16Sum_take_lt {l : List Char} {k k' : Nat} (h : k < k') (h' : k' ≤ l.length) :
    utf16Sum (l.take k) < utf16Sum (l.take k') := by
  have hk : k < l.length := by omega
  have step : utf16Sum (l.take k) < utf16Sum (l.take (k + 1)) := by
    rw [utf16Sum_take_succ hk]
    have := utf16Len_pos l[k]
    omega
  exact Nat.lt_of_lt_of_le step (utf16Sum_take_le_of_le (by omega))

theorem byteLen_take_le_of_le {l : List Char} {k k' : Nat} (h : k ≤ k') :
    byteLen (l.take k) ≤ byteLen (l.take k') := by
  have h1 : (l.take k').take k = l.take k := by
    rw [List.take_take, Nat.min_eq_left h]
  calc byteLen (l.take k) = byteLen ((l.take k').take k) := by rw [h1]
    _ ≤ byteLen ((l.take k').take k) + byteLen ((l.take k').drop k) := Nat.le_add_right _ _
    _ = byteLen (l.take k') := by rw [← byteLen_append, List.take_append_drop]

theorem byteLen_take_lt {l : List Char} {k k' : Nat} (h : k < k') (h' : k' ≤ l.length) :
    byteLen (l.take k) < byteLen (l.take k') := by
  have hk : k < l.length := by omega
  have step : byteLen (l.take k) < byteLen (l.take (k + 1)) := by
    rw [byteLen_take_succ hk]
    have := utf8Len_pos l[k]
    omega
  exact Nat.lt_of_lt_of_le step (byteLen_take_le_of_le (by omega))

/-- The boundary index is recovered from the UTF-16 column. -/
theorem utf16Sum_take_inj {l : List Char} {k k' : Nat} (hk : k ≤ l.length)
    (hk' : k' ≤ l.length) (h : utf16Sum (l.take k) = utf16Sum (l.take k')) : k = k' := by
  rcases Nat.lt_trichotomy k k' with hlt | heq | hgt
  · exact absurd h (Nat.ne_of_lt (utf16Sum_take_lt hlt hk'))
  · exact heq
  · exact absurd h.symm (Nat.ne_of_lt (utf16Sum_take_lt hgt hk))

theorem charToByte_zero (l : List Char) : charToByte l 0 = 0 := by
  cases l <;> rfl

theorem charToByte_take {l : List Char} {k : Nat} (hk : k ≤ l.length) :
    charToByte l (utf16Sum (l.take k)) = byteLen (l.take k) := by
  induction l generalizing k with
  | nil =>
    have : k = 0 := by simpa using hk
    subst this
    rfl
  | cons ch rest ih =>
    cases k with
    | zero => simp [utf16Sum, byteLen, charToByte_zero]
    | succ k0 =>
      have h16 : 1 ≤ utf16Len ch := utf16Len_pos ch
      have hsum : utf16Sum ((ch :: rest).take (k0 + 1)) =
          utf16Len ch + utf16Sum (rest.take k0) := by
        simp [List.take_cons, utf16Sum_cons]
      rw [hsum]
      obtain ⟨m, hm⟩ : ∃ m, utf16Len ch + utf16Sum (rest.take k0) = m + 1 :=
        ⟨utf16Len ch + utf16Sum (rest.take k0) - 1, by omega⟩
      rw [hm]
      have hstep : charToByte (ch :: rest) (m + 1) =
          utf8Len ch + charToByte rest (m + 1 - utf16Len ch) := rfl
      rw [hstep, ← hm]
      have harith : utf16Len ch + utf16Sum (rest.take k0) - utf16Len ch =
          utf16Sum (rest.take k0) := by omega
      rw [harith, ih (by simpa using hk)]
      simp [List.take_cons, byteLen]

theorem takeBytes_byteLen {l : List Char} {k : Nat} (hk : k ≤ l.length) :
    takeBytes l (byteLen (l.take k)) = some (l.take k) := by
  induction l generalizing k with
  | nil =>
    have : k = 0 := by simpa using hk
    subst this
    rfl
  | cons ch rest ih =>
    cases k with
    | zero => simp [byteLen, takeBytes]
    | succ k0 =>
      have h8 : 1 ≤ utf8Len ch := utf8Len_pos ch
      have hsum : byteLen ((ch :: rest).take (k0 + 1)) =
          utf8Len ch + byteLen (rest.take k0) := by
        simp [List.take_cons, byteLen]
      rw [hsum]
      obtain ⟨m, hm⟩ : ∃ m, utf8Len ch + byteLen (rest.take k0) = m + 1 :=
        ⟨utf8Len ch + byteLen (rest.take k0) - 1, by omega⟩
      rw [hm]
      have hstep : takeBytes (ch :: rest) (m + 1) =
          if utf8Len ch ≤ m + 1 then (takeBytes rest (m + 1 - utf8Len ch)).map (ch :: ·)
          else none := rfl
      rw [hstep, if_pos (by omega)]
      have harith : m + 1 - utf8Len ch = byteLen (rest.take k0) := by omega
      rw [harith, ih (by simpa using hk)]
      simp [List.take_cons]

theorem inBoundsPos_iff {text : List Char} {p : DocPos} :
    inBoundsPos text p = true ↔
      ∃ line, (splitSep '\n' text).get? p.line = some line ∧
        ∃ k, k < line.length ∧ p.char = utf16Sum (line.take k) := by
  unfold inBoundsPos
  cases hget : (splitSep '\n' text).get? p.line with
  | none => simp
  | some line =>
    simp only [List.any_eq_true, List.mem_range, beq_iff_eq, Option.some_inj]
    constructor
    · rintro ⟨k, hk, hkeq⟩
      exact ⟨line, rfl, k, hk, hkeq.symm⟩
    · rintro ⟨line', hline', k, hk, hkeq⟩
      subst hline'
      exact ⟨k, hk, hkeq.symm⟩

theorem linesBudget_append (xs ys : List (List Char)) :
    linesBudget (xs ++ ys) = linesBudget xs + linesBudget ys := by
  simp [linesBudget]

theorem linesBudget_take_succ {L : List (List Char)} {i : Nat} {l : List Char}
    (h : L.get? i = some l) :
    linesBudget (L.take (i + 1)) = linesBudget (L.take i) + (byteLen l + 1) := by
  rw [List.take_succ, linesBudget_append]
  rw [List.get?_eq_getElem?] at h
  simp [h, linesBudget]

theorem linesBudget_take_mono {L : List (List Char)} {n m : Nat} (h : n ≤ m) :
    linesBudget (L.take n) ≤ linesBudget (L.take m) := by
  have h1 : (L.take m).take n = L.take n := by
    rw [List.take_take, Nat.min_eq_left h]
  calc linesBudget (L.take n) = linesBudget ((L.take m).take n) := by rw [h1]
    _ ≤ linesBudget ((L.take m).take n) + linesBudget ((L.take m).drop n) :=
        Nat.le_add_right _ _
    _ = linesBudget (L.take m) := by rw [← linesBudget_append, List.take_append_drop]

theorem docposToOff_eq {text : List Char} {i k : Nat} {l : List Char}
    (hget : (splitSep '\n' text).get? i = some l) (hk : k ≤ l.length) :
    docposToOff text ⟨i, utf16Sum (l.take k)⟩ =
      linesBudget ((splitSep '\n' text).take i) + byteLen (l.take k) := by
  rw [docposToOff]
  simp only [hget, Option.getD_some]
  rw [charToByte_take hk]

theorem docposToOff_lt_budget_succ {text : List Char} {p : DocPos}
    (hp : inBoundsPos text p = true) :
    docposToOff text p < linesBudget ((splitSep '\n' text).take (p.line + 1)) := by
  obtain ⟨l, hget, k, hk, hchar⟩ := inBoundsPos_iff.mp hp
  have hoff : docposToOff text p =
      linesBudget ((splitSep '\n' text).take p.line) + byteLen (l.take k) := by
    have := docposToOff_eq hget (Nat.le_of_lt hk)
    rw [← hchar] at this
    exact this
  rw [hoff, linesBudget_take_succ hget]
  have hlt : byteLen (l.take k) < byteLen l := by
    conv_rhs => rw [← List.take_of_length_le (l := l) (Nat.le_refl _)]
    exact byteLen_take_lt hk (Nat.le_refl _)
  omega

theorem budget_le_docposToOff (text : List Char) (p : DocPos) :
    linesBudget ((splitSep '\n' text).take p.line) ≤ docposToOff text p := by
  rw [docposToOff]
  omega

theorem docposToOff_le {text : List Char} {p q : DocPos}
    (hp : inBoundsPos text p = true) (hq : inBoundsPos text q = true)
    (h : p.line < q.line ∨ (p.line = q.line ∧ p.char ≤ q.char)) :
    docposToOff text p ≤ docposToOff text q := by
  rcases h with hline | ⟨hline, hchar⟩
  · have h1 := docposToOff_lt_budget_succ hp
    have h2 := budget_le_docposToOff text q
    have h3 : linesBudget ((splitSep '\n' text).take (p.line + 1)) ≤
        linesBudget ((splitSep '\n' text).take q.line) := linesBudget_take_mono (by omega)
    omega
  · obtain ⟨l, hget, k, hk, hchar_p⟩ := inBoundsPos_iff.mp hp
    obtain ⟨l', hget', k', hk', hchar_q⟩ := inBoundsPos_iff.mp hq
    rw [hline] at hget
    rw [hget'] at hget
    have hll : l = l' := by simpa using hget.symm
    subst hll
    have hoffp : docposToOff text p =
        linesBudget ((splitSep '\n' text).take p.line) + byteLen (l.take k) := by
      have := docposToOff_eq (i := p.line) (hline ▸ hget') (Nat.le_of_lt hk)
      rw [← hchar_p] at this
      exact this
    have hoffq : docposToOff text q =
        linesBudget ((splitSep '\n' text).take q.line) + byteLen (l.take k') := by
      have := docposToOff_eq (i := q.line) hget' (Nat.le_of_lt hk')
      rw [← hchar_q] at this
      exact this
    rw [hoffp, hoffq, hline]
    have hkk : k ≤ k' := by
      by_contra hgt
      have : utf16Sum (l.take k') < utf16Sum (l.take k) :=
        utf16Sum_take_lt (by omega) (Nat.le_of_lt hk)
      omega
    have := byteLen_take_le_of_le (l := l) hkk
    omega

theorem docposToOff_inj {text : List Char} {p q : DocPos}
    (hp : inBoundsPos text p = true) (hq : inBoundsPos text q = true)
    (h : docposToOff text p = docposToOff text q) : p = q := by
  rcases Nat.lt_trichotomy p.line q.line with hline | hline | hline
  · have h1 := docposToOff_lt_budget_succ hp
    have h2 := budget_le_docposToOff text q
    have h3 : linesBudget ((splitSep '\n' text).take (p.line + 1)) ≤
        linesBudget ((splitSep '\n' text).take q.line) := linesBudget_take_mono (by omega)
    omega
  · obtain ⟨l, hget, k, hk, hchar_p⟩ := inBoundsPos_iff.mp hp
    obtain ⟨l', hget', k', hk', hchar_q⟩ := inBoundsPos_iff.mp hq
    rw [hline] at hget
    rw [hget'] at hget
    have hll : l = l' := by simpa using hget.symm
    subst hll
    have hoffp : docposToOff text p =
        linesBudget ((splitSep '\n' text).take p.line) + byteLen (l.take k) := by
      have := docposToOff_eq (i := p.line) (hline ▸ hget') (Nat.le_of_lt hk)
      rw [← hchar_p] at this
      exact this
    have hoffq : docposToOff text q =
        linesBudget ((splitSep '\n' text).take q.line) + byteLen (l.take k') := by
      have := docposToOff_eq (i := q.line) hget' (Nat.le_of_lt hk')
      rw [← hchar_q] at this
      exact this
    rw [hoffp, hoffq, hline] at h
    have hbk : byteLen (l.take k) = byteLen (l.take k') := by omega
    have hkk : k = k' := by
      rcases Nat.lt_trichotomy k k' with hlt | heq | hgt
      · exact absurd hbk (Nat.ne_of_lt (byteLen_take_lt hlt (Nat.le_of_lt hk')))
      · exact heq
      · exact absurd hbk.symm (Nat.ne_of_lt (byteLen_take_lt hgt (Nat.le_of_lt hk)))
    cases p with
    | mk pl pc =>
      cases q with
      | mk ql qc =>
        simp only at hline hchar_p hchar_q
        rw [hline, hchar_p, hchar_q, hkk]
  · have h1 := docposToOff_lt_budget_succ hq
    have h2 := budget_le_docposToOff text p
    have h3 : linesBudget ((splitSep '\n' text).take (q.line + 1)) ≤
        linesBudget ((splitSep '\n' text).take p.line) := linesBudget_take_mono (by omega)
    omega

theorem takeWhile_append_all {α : Type _} (P : α → Bool) {xs : List α} (ys : List α)
    (h : ∀ x ∈ xs, P x = true) :
    (xs ++ ys).takeWhile P = xs ++ ys.takeWhile P := by
  induction xs with
  | nil => simp
  | cons a l ih =>
    rw [List.cons_append, List.takeWhile_cons, h a (List.mem_cons_self a l)]
    simp [ih (fun x hx => h x (List.mem_cons_of_mem a hx))]

theorem dropWhile_append_all {α : Type _} (P : α → Bool) {xs : List α} (ys : List α)
    (h : ∀ x ∈ xs, P x = true) :
    (xs ++ ys).dropWhile P = ys.dropWhile P := by
  induction xs with
  | nil => simp
  | cons a l ih =>
    rw [List.cons_append, List.dropWhile_cons, h a (List.mem_cons_self a l)]
    exact ih (fun x hx => h x (List.mem_cons_of_mem a hx))

theorem mem_takeWhile_pred {α : Type _} {P : α → Bool} {l : List α} {x : α}
    (h : x ∈ l.takeWhile P) : P x = true := by
  induction l with
  | nil => simp [List.takeWhile] at h
  | cons a t ih =>
    rw [List.takeWhile_cons] at h
    cases hp : P a with
    | false => rw [hp] at h; simp at h
    | true =>
      rw [hp] at h
      cases h with
      | head => exact hp
      | tail _ h2 => exact ih h2

theorem dropWhile_head_not {α : Type _} {P : α → Bool} {l : List α} {x : α} {xs : List α}
    (h : l.dropWhile P = x :: xs) : P x = false := by
  induction l with
  | nil => rw [List.dropWhile_nil] at h; exact List.noConfusion h
  | cons a t ih =>
    rw [List.dropWhile_cons] at h
    cases hp : P a with
    | true => rw [hp] at h; exact ih h
    | false =>
      rw [hp, if_neg (by simp)] at h
      injection h with h1 h2
      rw [← h1]
      exact hp

instance {α : Type _} : IsTotal (DocPos × α) dposKeyLe :=
  ⟨fun x y => by unfold dposKeyLe; omega⟩

instance {α : Type _} : IsTrans (DocPos × α) dposKeyLe :=
  ⟨fun x y z hxy hyz => by
    unfold dposKeyLe at hxy hyz ⊢; omega⟩

instance {α : Type _} : IsTotal (Nat × α) offKeyLe :=
  ⟨fun x y => by unfold offKeyLe; omega⟩

instance {α : Type _} : IsTrans (Nat × α) offKeyLe :=
  ⟨fun x y z hxy hyz => by unfold offKeyLe at hxy hyz ⊢; omega⟩

theorem DocPos.ext_lc {a b : DocPos} (h1 : a.line = b.line) (h2 : a.char = b.char) :
    a = b := by
  cases a
  cases b
  simp_all

/-- One-line walk of `docpos2bpos` (`d2bLine`): entered at character
boundary `j` of line `lineI` with every pending point at or past that
boundary, it emits every pending point of this line at its byte offset
and returns the rest for later lines. -/
theorem d2bLine_correct {α : Type _} {text : List Char} {lineI : Nat} {line : List Char}
    (hget : (splitSep '\n' text).get? lineI = some line) :
    ∀ n j (cur : DocPos × α) (rest : List (DocPos × α)),
      line.length - j = n → j ≤ line.length →
      List.Pairwise dposKeyLe (cur :: rest) →
      (∀ p ∈ cur :: rest, inBoundsPos text p.1 = true) →
      (lineI < cur.1.line ∨ (cur.1.line = lineI ∧ utf16Sum (line.take j) ≤ cur.1.char)) →
      d2bLine lineI (linesBudget ((splitSep '\n' text).take lineI))
          (utf16Sum (line.take j)) (byteLen (line.take j)) cur rest (line.drop j) =
        some (((cur :: rest).takeWhile (fun p => p.1.line == lineI)).map
                (fun p => (docposToOff text p.1, p.2)),
              match (cur :: rest).dropWhile (fun p => p.1.line == lineI) with
              | [] => none
              | c :: r => some (c, r)) := by
  intro n
  induction n with
  | zero =>
    intro j cur rest hn hj hchain hin hcur
    have hjl : j = line.length := by omega
    subst hjl
    have hgt : lineI < cur.1.line := by
      rcases hcur with h | ⟨hl, hc⟩
      · exact h
      · exfalso
        obtain ⟨l2, hget2, k, hk, hck⟩ := inBoundsPos_iff.mp (hin cur (List.mem_cons_self _ _))
        rw [hl, hget] at hget2
        injection hget2 with hl2
        subst hl2
        have hlt := utf16Sum_take_lt hk (Nat.le_refl line.length)
        omega
    have hne : (cur.1.line == lineI) = false := by
      simpa using Nat.ne_of_gt hgt
    rw [List.drop_length, List.takeWhile_cons, List.dropWhile_cons, hne]
    simp [d2bLine]
  | succ m ih =>
    intro j cur rest hn hj hchain hin hcur
    have hjlt : j < line.length := by omega
    rw [List.drop_eq_getElem_cons hjlt]
    by_cases hline : cur.1.line = lineI
    · have hu : utf16Sum (line.take j) ≤ cur.1.char := by
        rcases hcur with h | ⟨_, hc⟩
        · rw [hline] at h; omega
        · exact hc
      obtain ⟨l2, hget2, k, hk, hck⟩ := inBoundsPos_iff.mp (hin cur (List.mem_cons_self _ _))
      rw [hline, hget] at hget2
      injection hget2 with hl2
      subst hl2
      simp only [d2bLine]
      rw [if_pos hline, if_pos hu]
      have hTW : (cur :: rest).takeWhile (fun p => p.1.line == lineI)
          = cur :: rest.takeWhile (fun p => p.1.line == lineI) := by
        rw [List.takeWhile_cons]
        simp [hline]
      have hDW0 : (cur :: rest).dropWhile (fun p => p.1.line == lineI)
          = rest.dropWhile (fun p => p.1.line == lineI) := by
        rw [List.dropWhile_cons]
        simp [hline]
      by_cases heq : utf16Sum (line.take j) = cur.1.char
      · rw [if_pos heq]
        have hcur1 : cur.1 = ⟨lineI, utf16Sum (line.take j)⟩ := by
          rw [← hline, heq]
        have hoff : linesBudget ((splitSep '\n' text).take lineI) + byteLen (line.take j)
            = docposToOff text cur.1 := by
          rw [hcur1]
          exact (docposToOff_eq hget (Nat.le_of_lt hjlt)).symm
        have hdups : ∀ p ∈ rest.takeWhile (fun p => p.1 == cur.1), p.1 = cur.1 :=
          fun p hp => by simpa using mem_takeWhile_pred hp
        have hdupsl : ∀ p ∈ rest.takeWhile (fun p => p.1 == cur.1),
            ((fun p : DocPos × α => p.1.line == lineI) p) = true := fun p hp => by
          show (p.1.line == lineI) = true
          rw [hdups p hp]
          simpa using hline
        have hrsteq : rest
            = rest.takeWhile (fun p => p.1 == cur.1) ++ rest.dropWhile (fun p => p.1 == cur.1) :=
          (List.takeWhile_append_dropWhile _ _).symm
        have hTW2 : rest.takeWhile (fun p => p.1.line == lineI)
            = rest.takeWhile (fun p => p.1 == cur.1)
              ++ (rest.dropWhile (fun p => p.1 == cur.1)).takeWhile
                  (fun p => p.1.line == lineI) := by
          conv_lhs => rw [hrsteq]
          exact takeWhile_append_all _ _ hdupsl
        have hDW2 : rest.dropWhile (fun p => p.1.line == lineI)
            = (rest.dropWhile (fun p => p.1 == cur.1)).dropWhile
                (fun p => p.1.line == lineI) := by
          conv_lhs => rw [hrsteq]
          exact dropWhile_append_all _ _ hdupsl
        have hmap : (cur :: rest.takeWhile (fun p => p.1 == cur.1)).map
              (fun p => (docposToOff text p.1, p.2))
            = (linesBudget ((splitSep '\n' text).take lineI) + byteLen (line.take j), cur.2)
              :: (rest.takeWhile (fun p => p.1 == cur.1)).map
                  (fun p => (linesBudget ((splitSep '\n' text).take lineI)
                    + byteLen (line.take j), p.2)) := by
          rw [List.map_cons]
          congr 1
          · rw [← hoff]
          · exact List.map_congr_left (fun p hp => by rw [hdups p hp, ← hoff])
        cases hrest2 : rest.dropWhile (fun p => p.1 == cur.1) with
        | nil =>
          rw [hTW, hTW2, hDW0, hDW2, hrest2]
          simp only [List.takeWhile_nil, List.dropWhile_nil, List.append_nil]
          rw [hmap]
        | cons nc nr =>
          have hsub : List.Sublist (nc :: nr) rest := hrest2 ▸ List.dropWhile_sublist _
          have hnc_mem : nc ∈ rest := hsub.subset (List.mem_cons_self _ _)
          have hchain2 : List.Pairwise dposKeyLe (nc :: nr) :=
            hchain.sublist (hsub.cons cur)
          have hin2 : ∀ p ∈ nc :: nr, inBoundsPos text p.1 = true :=
            fun p hp => hin p ((hsub.cons cur).subset hp)
          have hle : dposKeyLe cur nc := (List.pairwise_cons.mp hchain).1 nc hnc_mem
          have hne2 : nc.1 ≠ cur.1 := by
            simpa using dropWhile_head_not hrest2
          have hcur2 : lineI < nc.1.line
              ∨ (nc.1.line = lineI ∧ utf16Sum (line.take (j + 1)) ≤ nc.1.char) := by
            rcases hle with hlt | ⟨hleq, hlc⟩
            · left; rw [hline] at hlt; exact hlt
            · right
              have hncl : nc.1.line = lineI := by rw [← hleq]; exact hline
              refine ⟨hncl, ?_⟩
              obtain ⟨l3, hget3, k2, hk2, hck2⟩ :=
                inBoundsPos_iff.mp (hin nc (List.mem_cons_of_mem _ hnc_mem))
              rw [hncl, hget] at hget3
              injection hget3 with hl3
              subst hl3
              have hcc : cur.1.char ≠ nc.1.char := by
                intro hceq
                exact hne2 (DocPos.ext_lc (by rw [hncl, hline]) hceq.symm)
              have hjk2 : j < k2 := by
                by_contra hge
                have hle2 := utf16Sum_take_le_of_le (l := line) (Nat.not_lt.mp hge)
                omega
              have := utf16Sum_take_le_of_le (l := line) (show j + 1 ≤ k2 by omega)
              omega
          have hdmap : (rest.takeWhile (fun p => p.1 == cur.1)).map
                (fun p => (docposToOff text p.1, p.2))
              = (rest.takeWhile (fun p => p.1 == cur.1)).map
                  (fun p => (linesBudget ((splitSep '\n' text).take lineI)
                    + byteLen (line.take j), p.2)) :=
            List.map_congr_left (fun p hp => by rw [hdups p hp, ← hoff])
          dsimp only
          rw [← utf16Sum_take_succ hjlt, ← byteLen_take_succ hjlt]
          rw [ih (j + 1) nc nr (by omega) (by omega) hchain2 hin2 hcur2]
          rw [hTW, hTW2, hDW0, hDW2, hrest2]
          simp only [Option.map_some']
          rw [List.map_cons, List.map_append, ← hoff, hdmap]
          simp [List.cons_append]
      · rw [if_neg heq]
        have hjk : j < k := by
          by_contra hge
          have hle2 := utf16Sum_take_le_of_le (l := line) (Nat.not_lt.mp hge)
          omega
        have hcur2 : lineI < cur.1.line
            ∨ (cur.1.line = lineI ∧ utf16Sum (line.take (j + 1)) ≤ cur.1.char) := by
          right
          refine ⟨hline, ?_⟩
          have := utf16Sum_take_le_of_le (l := line) (show j + 1 ≤ k by omega)
          omega
        rw [← utf16Sum_take_succ hjlt, ← byteLen_take_succ hjlt]
        exact ih (j + 1) cur rest (by omega) (by omega) hchain hin hcur2
    · have hgt : lineI < cur.1.line := by
        rcases hcur with h | ⟨hl, _⟩
        · exact h
        · exact absurd hl hline
      have hne : (cur.1.line == lineI) = false := by
        simpa using Nat.ne_of_gt hgt
      rw [List.takeWhile_cons, List.dropWhile_cons, hne]
      simp only [d2bLine]
      rw [if_neg hline]
      simp

/-- The line loop of `docpos2bpos`: for a sorted all-in-bounds pending
list whose head is at or past line `pre.length`, the walk emits every
pending point at its byte offset, in input order. -/
theorem d2bLines_correct {α : Type _} {text : List Char} :
    ∀ (ls pre : List (List Char)), splitSep '\n' text = pre ++ ls →
    ∀ (cur : DocPos × α) (rest : List (DocPos × α)),
      List.Pairwise dposKeyLe (cur :: rest) →
      (∀ p ∈ cur :: rest, inBoundsPos text p.1 = true) →
      pre.length ≤ cur.1.line →
      d2bLines pre.length (linesBudget pre) cur rest ls =
        some ((cur :: rest).map (fun p => (docposToOff text p.1, p.2))) := by
  intro ls
  induction ls with
  | nil =>
    intro pre hsplit cur rest _hchain hin hline
    exfalso
    obtain ⟨l2, hget2, _, _, _⟩ := inBoundsPos_iff.mp (hin cur (List.mem_cons_self _ _))
    have hnone : (splitSep '\n' text).get? cur.1.line = none := by
      apply List.get?_eq_none.mpr
      rw [hsplit]
      simpa using hline
    rw [hnone] at hget2
    exact Option.noConfusion hget2
  | cons l ls2 ihl =>
    intro pre hsplit cur rest hchain hin hline
    have hget : (splitSep '\n' text).get? pre.length = some l := by
      rw [hsplit]
      exact get?_append_cons pre l ls2
    have hcur0 : pre.length < cur.1.line
        ∨ (cur.1.line = pre.length ∧ utf16Sum (l.take 0) ≤ cur.1.char) := by
      rcases Nat.lt_or_ge pre.length cur.1.line with h | h
      · left; exact h
      · right
        refine ⟨by omega, ?_⟩
        simp [utf16Sum]
    have hmain := d2bLine_correct (α := α) hget l.length 0 cur rest rfl (Nat.zero_le _)
      hchain hin hcur0
    rw [hsplit, List.take_left] at hmain
    simp only [List.take_zero, List.drop_zero, utf16Sum, byteLen, List.map_nil,
      List.sum_nil] at hmain
    simp only [d2bLines]
    cases hdw : (cur :: rest).dropWhile (fun p => p.1.line == pre.length) with
    | nil =>
      rw [hdw] at hmain
      have hTWall : (cur :: rest).takeWhile (fun p => p.1.line == pre.length)
          = cur :: rest := by
        have h0 := List.takeWhile_append_dropWhile
          (fun p : DocPos × α => p.1.line == pre.length) (cur :: rest)
        rw [hdw, List.append_nil] at h0
        exact h0
      rw [hTWall] at hmain
      rw [hmain]
    | cons c2 r2 =>
      rw [hdw] at hmain
      dsimp only at hmain
      rw [hmain]
      dsimp only
      have hsub : List.Sublist (c2 :: r2) (cur :: rest) := hdw ▸ List.dropWhile_sublist _
      have hchain2 : List.Pairwise dposKeyLe (c2 :: r2) := hchain.sublist hsub
      have hin2 : ∀ p ∈ c2 :: r2, inBoundsPos text p.1 = true :=
        fun p hp => hin p (hsub.subset hp)
      have hc2line : pre.length + 1 ≤ c2.1.line := by
        have hne : c2.1.line ≠ pre.length := by
          simpa using dropWhile_head_not hdw
        have hmem : c2 ∈ cur :: rest := hsub.subset (List.mem_cons_self _ _)
        have hge : pre.length ≤ c2.1.line := by
          rcases List.mem_cons.mp hmem with h | h
          · rw [h]; exact hline
          · rcases (List.pairwise_cons.mp hchain).1 c2 h with hlt | ⟨hleq, _⟩
            · omega
            · rw [← hleq]; exact hline
        omega
      have ih2 := ihl (pre ++ [l]) (by rw [hsplit]; simp) c2 r2 hchain2 hin2
        (by simpa using hc2line)
      have hbud : linesBudget (pre ++ [l]) = linesBudget pre + byteLen l + 1 := by
        rw [linesBudget_append]
        have h1 : linesBudget [l] = byteLen l + 1 := by simp [linesBudget]
        rw [h1]
        omega
      rw [hbud] at ih2
      simp only [List.length_append, List.length_cons, List.length_nil, Nat.zero_add] at ih2
      rw [ih2]
      conv_rhs => rw [← List.takeWhile_append_dropWhile
        (fun p : DocPos × α => p.1.line == pre.length) (cur :: rest), hdw]
      rw [List.map_append]

/-- `docpos2bpos` on a nonempty all-in-bounds input over `\r`-free text:
it sorts the input by position and maps each point to its byte offset. -/
theorem docpos2bpos_correct {α : Type _} {text : List Char} {P : List (DocPos × α)}
    (hr : text.contains '\r' = false) (hne : P ≠ [])
    (hin : ∀ p ∈ P, inBoundsPos text p.1 = true) :
    docpos2bpos P text =
      some ((List.insertionSort dposKeyLe P).map
        (fun p => (docposToOff text p.1, p.2))) := by
  rw [docpos2bpos, if_neg (by rw [hr]; simp)]
  cases hs : List.insertionSort dposKeyLe P with
  | nil =>
    exfalso
    have hp := List.perm_insertionSort dposKeyLe P
    rw [hs] at hp
    exact hne hp.symm.eq_nil
  | cons cur rest =>
    have hperm : List.Perm (cur :: rest) P := hs ▸ List.perm_insertionSort dposKeyLe P
    have hsorted : List.Sorted dposKeyLe (cur :: rest) :=
      hs ▸ List.sorted_insertionSort dposKeyLe P
    have hin2 : ∀ p ∈ cur :: rest, inBoundsPos text p.1 = true :=
      fun p hp => hin p (hperm.subset hp)
    have hmain := d2bLines_correct (splitSep '\n' text) [] (by simp) cur rest hsorted hin2
      (by simp)
    have hb0 : linesBudget ([] : List (List Char)) = 0 := by simp [linesBudget]
    rw [List.length_nil, hb0] at hmain
    exact hmain

theorem docposToOff_on_line {text : List Char} {lineI : Nat} {line : List Char}
    (hget : (splitSep '\n' text).get? lineI = some line) {p : DocPos}
    (hp : inBoundsPos text p = true) (hpl : p.line = lineI) :
    ∃ k, k < line.length ∧ p.char = utf16Sum (line.take k) ∧
      docposToOff text p
        = linesBudget ((splitSep '\n' text).take lineI) + byteLen (line.take k) := by
  obtain ⟨l2, hget2, k, hk, hchar⟩ := inBoundsPos_iff.mp hp
  rw [hpl, hget] at hget2
  injection hget2 with hl2
  subst hl2
  refine ⟨k, hk, hchar, ?_⟩
  have hpe : p = ⟨lineI, utf16Sum (line.take k)⟩ := by rw [← hpl, ← hchar]
  rw [hpe]
  exact docposToOff_eq hget (Nat.le_of_lt hk)

theorem docposToOff_off_line {text : List Char} {lineI : Nat} {line : List Char}
    (hget : (splitSep '\n' text).get? lineI = some line) {p : DocPos}
    (_hp : inBoundsPos text p = true) (hpl : lineI < p.line) :
    linesBudget ((splitSep '\n' text).take lineI) + byteLen line + 1 ≤ docposToOff text p := by
  have h1 := budget_le_docposToOff text p
  have h2 : linesBudget ((splitSep '\n' text).take (lineI + 1)) ≤
      linesBudget ((splitSep '\n' text).take p.line) := linesBudget_take_mono (by omega)
  rw [linesBudget_take_succ hget] at h2
  omega

/-- One-line walk of `bpos2docpos` (`b2dGo`), after the current point of
line `lineI` was emitted at position `p`: every remaining offset that
denotes a point of this line is emitted at that point, and the rest is
returned for later lines. -/
theorem b2dGo_correct {α : Type _} {text : List Char} {lineI : Nat} {line : List Char}
    (hget : (splitSep '\n' text).get? lineI = some line) :
    ∀ (S : List (DocPos × α)) (p : DocPos),
      inBoundsPos text p = true → p.line = lineI →
      List.Pairwise dposKeyLe S →
      (∀ x ∈ S, inBoundsPos text x.1 = true) →
      (∀ x ∈ S, p.line < x.1.line ∨ (p.line = x.1.line ∧ p.char ≤ x.1.char)) →
      b2dGo lineI (linesBudget ((splitSep '\n' text).take lineI)) (byteLen line) line p
          (docposToOff text p) (S.map (fun x => (docposToOff text x.1, x.2))) =
        some (S.takeWhile (fun x => x.1.line == lineI),
              match S.dropWhile (fun x => x.1.line == lineI) with
              | [] => none
              | c :: r => some ((docposToOff text c.1, c.2),
                  r.map (fun x => (docposToOff text x.1, x.2)))) := by
  intro S
  induction S with
  | nil =>
    intro p _hp _hpl _hchain _hin _hrel
    simp [b2dGo]
  | cons x S2 ihS =>
    intro p hp hpl hchain hin hrel
    have hxin : inBoundsPos text x.1 = true := hin x (List.mem_cons_self _ _)
    have hxrel := hrel x (List.mem_cons_self _ _)
    have hgel : docposToOff text p ≤ docposToOff text x.1 :=
      docposToOff_le hp hxin hxrel
    rw [List.map_cons]
    simp only [b2dGo]
    rw [if_neg (by omega)]
    by_cases hoe : docposToOff text x.1 = docposToOff text p
    · rw [if_pos hoe]
      have hxp : x.1 = p := docposToOff_inj hxin hp hoe
      have hrel2 : ∀ y ∈ S2, p.line < y.1.line ∨ (p.line = y.1.line ∧ p.char ≤ y.1.char) := by
        intro y hy
        have h3 : x.1.line < y.1.line ∨ (x.1.line = y.1.line ∧ x.1.char ≤ y.1.char) :=
          (List.pairwise_cons.mp hchain).1 y hy
        rw [hxp] at h3
        exact h3
      rw [ihS p hp hpl (List.pairwise_cons.mp hchain).2
        (fun y hy => hin y (List.mem_cons_of_mem _ hy)) hrel2]
      rw [List.takeWhile_cons, List.dropWhile_cons]
      have hxline : (x.1.line == lineI) = true := by
        rw [hxp, hpl]
        simp
      rw [hxline]
      simp only [Option.map_some']
      rw [← hxp]
      simp
    · rw [if_neg hoe]
      have hlt2 : docposToOff text p < docposToOff text x.1 := by omega
      by_cases hxl : x.1.line = lineI
      · obtain ⟨k, hk, hchar, hoffx⟩ := docposToOff_on_line hget hxin hxl
        have hub : docposToOff text x.1
            < linesBudget ((splitSep '\n' text).take lineI) + byteLen line + 1 := by
          have hlt3 : byteLen (line.take k) < byteLen line := by
            conv_rhs => rw [← List.take_length (l := line)]
            exact byteLen_take_lt hk (Nat.le_refl _)
          omega
        rw [if_pos hub, if_pos (by omega)]
        have hsub : docposToOff text x.1 - linesBudget ((splitSep '\n' text).take lineI)
            = byteLen (line.take k) := by omega
        rw [hsub, takeBytes_byteLen (Nat.le_of_lt hk)]
        dsimp only
        have hpos : DocPos.mk lineI (utf16Sum (line.take k)) = x.1 :=
          (DocPos.ext_lc (a := x.1) hxl hchar).symm
        have hrel2 : ∀ y ∈ S2,
            x.1.line < y.1.line ∨ (x.1.line = y.1.line ∧ x.1.char ≤ y.1.char) :=
          fun y hy => (List.pairwise_cons.mp hchain).1 y hy
        have hrec := ihS x.1 hxin hxl (List.pairwise_cons.mp hchain).2
          (fun y hy => hin y (List.mem_cons_of_mem _ hy)) hrel2
        rw [hpos, hrec]
        rw [List.takeWhile_cons, List.dropWhile_cons]
        have hxline : (x.1.line == lineI) = true := by rw [hxl]; simp
        rw [hxline]
        simp only [Option.map_some']
        simp
      · have hxgt : lineI < x.1.line := by
          rcases hxrel with h | ⟨hleq, _⟩
          · rw [hpl] at h; exact h
          · exact absurd (by rw [← hleq, hpl]) hxl
        have hlb := docposToOff_off_line hget hxin hxgt
        rw [if_neg (by omega)]
        rw [List.takeWhile_cons, List.dropWhile_cons]
        have hxline : (x.1.line == lineI) = false := by
          simpa using Nat.ne_of_gt hxgt
        rw [hxline]
        simp

/-- Entry into one line of `bpos2docpos` (`b2dLine`): as `b2dGo_correct`,
including the emission of the line's first pending point. -/
theorem b2dLine_correct {α : Type _} {text : List Char} {lineI : Nat} {line : List Char}
    (hget : (splitSep '\n' text).get? lineI = some line)
    (cur : DocPos × α) (rest : List (DocPos × α))
    (hchain : List.Pairwise dposKeyLe (cur :: rest))
    (hin : ∀ x ∈ cur :: rest, inBoundsPos text x.1 = true)
    (hline : lineI ≤ cur.1.line) :
    b2dLine lineI (linesBudget ((splitSep '\n' text).take lineI)) line
        (docposToOff text cur.1, cur.2) (rest.map (fun x => (docposToOff text x.1, x.2))) =
      some ((cur :: rest).takeWhile (fun x => x.1.line == lineI),
            match (cur :: rest).dropWhile (fun x => x.1.line == lineI) with
            | [] => none
            | c :: r => some ((docposToOff text c.1, c.2),
                r.map (fun x => (docposToOff text x.1, x.2)))) := by
  have hcin : inBoundsPos text cur.1 = true := hin cur (List.mem_cons_self _ _)
  rw [b2dLine]
  by_cases hcl : cur.1.line = lineI
  · obtain ⟨k, hk, hchar, hoffc⟩ := docposToOff_on_line hget hcin hcl
    have h1 : docposToOff text cur.1
        < linesBudget ((splitSep '\n' text).take lineI) + byteLen line + 1 := by
      have hlt3 : byteLen (line.take k) < byteLen line := by
        conv_rhs => rw [← List.take_length (l := line)]
        exact byteLen_take_lt hk (Nat.le_refl _)
      omega
    have h2 : linesBudget ((splitSep '\n' text).take lineI) ≤ docposToOff text cur.1 := by
      omega
    rw [if_pos h1, if_pos h2]
    have hsub2 : docposToOff text cur.1 - linesBudget ((splitSep '\n' text).take lineI)
        = byteLen (line.take k) := by omega
    rw [hsub2, takeBytes_byteLen (Nat.le_of_lt hk)]
    dsimp only
    have hpos : DocPos.mk lineI (utf16Sum (line.take k)) = cur.1 :=
      (DocPos.ext_lc (a := cur.1) hcl hchar).symm
    have hrel : ∀ y ∈ rest,
        cur.1.line < y.1.line ∨ (cur.1.line = y.1.line ∧ cur.1.char ≤ y.1.char) :=
      fun y hy => (List.pairwise_cons.mp hchain).1 y hy
    have hrec := b2dGo_correct hget rest cur.1 hcin hcl (List.pairwise_cons.mp hchain).2
      (fun y hy => hin y (List.mem_cons_of_mem _ hy)) hrel
    rw [hpos, hrec]
    rw [List.takeWhile_cons, List.dropWhile_cons]
    have hcline : (cur.1.line == lineI) = true := by rw [hcl]; simp
    rw [hcline]
    simp only [Option.map_some']
    simp
  · have hgt : lineI < cur.1.line := by omega
    have hlb := docposToOff_off_line hget hcin hgt
    rw [if_neg (by omega)]
    rw [List.takeWhile_cons, List.dropWhile_cons]
    have hcline : (cur.1.line == lineI) = false := by
      simpa using Nat.ne_of_gt hgt
    rw [hcline]
    simp

/-- The line loop of `bpos2docpos`: applied to the offset image of a
sorted all-in-bounds list whose head is at or past line `pre.length`,
the walk recovers the original positions with their payloads. -/
theorem b2dLines_correct {α : Type _} {text : List Char} :
    ∀ (ls pre : List (List Char)), splitSep '\n' text = pre ++ ls →
    ∀ (cur : DocPos × α) (rest : List (DocPos × α)),
      List.Pairwise dposKeyLe (cur :: rest) →
      (∀ x ∈ cur :: rest, inBoundsPos text x.1 = true) →
      pre.length ≤ cur.1.line →
      b2dLines pre.length (linesBudget pre) (docposToOff text cur.1, cur.2)
          (rest.map (fun x => (docposToOff text x.1, x.2))) ls = some (cur :: rest) := by
  intro ls
  induction ls with
  | nil =>
    intro pre hsplit cur rest _hchain hin hline
    exfalso
    obtain ⟨l2, hget2, _, _, _⟩ := inBoundsPos_iff.mp (hin cur (List.mem_cons_self _ _))
    have hnone : (splitSep '\n' text).get? cur.1.line = none := by
      apply List.get?_eq_none.mpr
      rw [hsplit]
      simpa using hline
    rw [hnone] at hget2
    exact Option.noConfusion hget2
  | cons l ls2 ihl =>
    intro pre hsplit cur rest hchain hin hline
    have hget : (splitSep '\n' text).get? pre.length = some l := by
      rw [hsplit]
      exact get?_append_cons pre l ls2
    have hmain := b2dLine_correct hget cur rest hchain hin hline
    rw [hsplit, List.take_left] at hmain
    simp only [b2dLines]
    cases hdw : (cur :: rest).dropWhile (fun x => x.1.line == pre.length) with
    | nil =>
      rw [hdw] at hmain
      have hTWall : (cur :: rest).takeWhile (fun x => x.1.line == pre.length)
          = cur :: rest := by
        have h0 := List.takeWhile_append_dropWhile
          (fun x : DocPos × α => x.1.line == pre.length) (cur :: rest)
        rw [hdw, List.append_nil] at h0
        exact h0
      rw [hTWall] at hmain
      rw [hmain]
    | cons c2 r2 =>
      rw [hdw] at hmain
      dsimp only at hmain
      rw [hmain]
      dsimp only
      have hsub : List.Sublist (c2 :: r2) (cur :: rest) := hdw ▸ List.dropWhile_sublist _
      have hchain2 : List.Pairwise dposKeyLe (c2 :: r2) := hchain.sublist hsub
      have hin2 : ∀ x ∈ c2 :: r2, inBoundsPos text x.1 = true :=
        fun x hx => hin x (hsub.subset hx)
      have hc2line : pre.length + 1 ≤ c2.1.line := by
        have hne : c2.1.line ≠ pre.length := by
          simpa using dropWhile_head_not hdw
        have hmem : c2 ∈ cur :: rest := hsub.subset (List.mem_cons_self _ _)
        have hge : pre.length ≤ c2.1.line := by
          rcases List.mem_cons.mp hmem with h | h
          · rw [h]; exact hline
          · rcases (List.pairwise_cons.mp hchain).1 c2 h with hlt | ⟨hleq, _⟩
            · omega
            · rw [← hleq]; exact hline
        omega
      have ih2 := ihl (pre ++ [l]) (by rw [hsplit]; simp) c2 r2 hchain2 hin2
        (by simpa using hc2line)
      have hbud : linesBudget (pre ++ [l]) = linesBudget pre + byteLen l + 1 := by
        rw [linesBudget_append]
        have h1 : linesBudget [l] = byteLen l + 1 := by simp [linesBudget]
        rw [h1]
        omega
      rw [hbud] at ih2
      simp only [List.length_append, List.length_cons, List.length_nil, Nat.zero_add] at ih2
      rw [ih2]
      conv_rhs => rw [← List.takeWhile_append_dropWhile
        (fun x : DocPos × α => x.1.line == pre.length) (cur :: rest), hdw]

/-- Claim C4: for every text `T` without a carriage return and every
nonempty collection `P` of in-bounds positions with payloads (each
position names an existing line and a UTF-16 boundary strictly inside
it), `docpos2bpos(P, T)` succeeds, `bpos2docpos` applied to its output
succeeds, and the result recovers exactly the positions and payloads of
`P`, duplicates included (a permutation, as both conversions sort). -/
theorem docpos_roundtrip {α : Type _} {text : List Char} {P : List (DocPos × α)}
    (hr : text.contains '\r' = false) (hne : P ≠ [])
    (hin : ∀ p ∈ P, inBoundsPos text p.1 = true) :
    ∃ Q, docpos2bpos P text = some Q ∧
      ∃ R, bpos2docpos Q text = some R ∧ List.Perm R P := by
  refine ⟨(List.insertionSort dposKeyLe P).map (fun p => (docposToOff text p.1, p.2)),
    docpos2bpos_correct hr hne hin, ?_⟩
  have hperm : List.Perm (List.insertionSort dposKeyLe P) P := List.perm_insertionSort _ _
  have hsorted : List.Sorted dposKeyLe (List.insertionSort dposKeyLe P) :=
    List.sorted_insertionSort _ _
  have hin2 : ∀ p ∈ List.insertionSort dposKeyLe P, inBoundsPos text p.1 = true :=
    fun p hp => hin p (hperm.subset hp)
  refine ⟨List.insertionSort dposKeyLe P, ?_, hperm⟩
  rw [bpos2docpos, if_neg (by rw [hr]; simp)]
  have hsorted_off : List.Pairwise offKeyLe
      ((List.insertionSort dposKeyLe P).map (fun p => (docposToOff text p.1, p.2))) := by
    rw [List.pairwise_map]
    exact List.Pairwise.imp_of_mem
      (fun ha hb hab => docposToOff_le (hin2 _ ha) (hin2 _ hb) hab) hsorted
  rw [List.Sorted.insertionSort_eq hsorted_off]
  cases hs : List.insertionSort dposKeyLe P with
  | nil =>
    exfalso
    rw [hs] at hperm
    exact hne hperm.symm.eq_nil
  | cons cur rest =>
    rw [List.map_cons]
    dsimp only
    have hchain : List.Pairwise dposKeyLe (cur :: rest) := hs ▸ hsorted
    have hin3 : ∀ x ∈ cur :: rest, inBoundsPos text x.1 = true :=
      fun x hx => hin2 x (by rw [hs]; exact hx)
    have hmain := b2dLines_correct (splitSep '\n' text) [] (by simp) cur rest hchain hin3
      (by simp)
    have hb0 : linesBudget ([] : List (List Char)) = 0 := by simp [linesBudget]
    rw [List.length_nil, hb0] at hmain
    exact hmain

/-- Witness for `docpos_roundtrip`: text `"ab\ncd"` and the points
`(1,1)`, `(0,0)`, `(0,0)` with payloads `0`, `1`, `2`. -/
theorem docpos_roundtrip_witness :
    ∃ Q, docpos2bpos [(DocPos.mk 1 1, 0), (DocPos.mk 0 0, 1), (DocPos.mk 0 0, 2)]
        ("ab\ncd".toList) = some Q ∧
      ∃ R, bpos2docpos Q ("ab\ncd".toList) = some R ∧
        List.Perm R [(DocPos.mk 1 1, 0), (DocPos.mk 0 0, 1), (DocPos.mk 0 0, 2)] :=
  docpos_roundtrip (by decide) (by decide) (by decide)

/-! ## Workspace / project registry (src/server/src/cmd/fs.rs lines 106-180) -/

/-- Interned path segments (`VPath` of the orchidlang dependency). -/
abbrev VPath := List (List Char)

/-- `CtxProj` (fs.rs lines 106-110), reduced to its path; the changes
set and abort token play no role in the lookup claims. -/
structure CtxProj where
  path : VPath
  deriving DecidableEq

/-- `CtxProj::path_in` (fs.rs lines 113-115): `PathSlice::strip_prefix`
of the project path from the argument. -/
def CtxProj.path_in (proj : CtxProj) (p : VPath) : Option VPath :=
  List.dropPrefix? p proj.path

/-- `CtxWsp` (fs.rs lines 118-122); of the shared store only the
basepath participates in lookups. -/
structure CtxWsp where
  name : List Char
  basepath : FileUri
  projects : List CtxProj
  deriving DecidableEq

/-- `CtxWsp::path_in` (fs.rs line 124): `uri.to_vpath(&store.basepath)`. -/
def CtxWsp.path_in (w : CtxWsp) (uri : FileUri) : Option VPath :=
  uri.to_vpath w.basepath

/-- `CtxWsp::get_proj` (fs.rs lines 126-128): `find_map`, i.e. the
*first* project (in insertion order) whose path is a prefix of `p`,
together with the remainder. -/
def CtxWsp.get_proj (w : CtxWsp) (p : VPath) : Option (VPath × CtxProj) :=
  w.projects.findSome? (fun proj => (proj.path_in p).map (fun r => (r, proj)))

/-- The `usize as i32` cast in `get_wsp`'s sort key: truncate to 32 bits
and reinterpret as two's complement (the literals are `2^32` and
`2^31`). -/
def i32ofNat (n : Nat) : Int :=
  let m : Nat := n % 4294967296
  if m < 2147483648 then (m : Int) else (m : Int) - 4294967296

/-- Rust `Iterator::max_by_key` (fold keeping the element with the
greatest key; among equal keys the last one wins): the accumulator
step. -/
def maxByKeyAux {β : Type _} (key : β → Int) (a : β) : List β → β
  | [] => a
  | x :: rest => maxByKeyAux key (if key a ≤ key x then x else a) rest

/-- Rust `Iterator::max_by_key`. -/
def maxByKeyLast {β : Type _} (key : β → Int) : List β → Option β
  | [] => none
  | x :: rest => some (maxByKeyAux key x rest)

/-- `WorkspaceCtx` (fs.rs line 138). -/
structure WorkspaceCtx where
  wsps : List CtxWsp
  deriving DecidableEq

/-- `WorkspaceCtx::get_wsp` (fs.rs lines 155-159): among the workspaces
containing the URI, maximize `-(remainder.len() as i32)` — i.e. pick the
shortest remainder, hence the longest basepath. -/
def WorkspaceCtx.get_wsp (ctx : WorkspaceCtx) (uri : FileUri) : Option (VPath × CtxWsp) :=
  maxByKeyLast (fun q => -(i32ofNat q.1.length))
    (ctx.wsps.filterMap (fun w => (w.path_in uri).map (fun p => (p, w))))

/-- `WorkspaceCtx::get_proj` (fs.rs lines 166-170): workspace lookup
followed by project lookup on the remainder. -/
def WorkspaceCtx.get_proj (ctx : WorkspaceCtx) (uri : FileUri) :
    Option (VPath × CtxWsp × CtxProj) :=
  match ctx.get_wsp uri with
  | none => none
  | some (subpath, wsp) =>
    match wsp.get_proj subpath with
    | none => none
    | some (p, proj) => some (p, wsp, proj)

theorem maxByKeyAux_spec {β : Type _} (key : β → Int) (a : β) (l : List β) :
    (maxByKeyAux key a l = a ∨ maxByKeyAux key a l ∈ l) ∧
    key a ≤ key (maxByKeyAux key a l) ∧
    ∀ y ∈ l, key y ≤ key (maxByKeyAux key a l) := by
  induction l generalizing a with
  | nil => exact ⟨Or.inl rfl, Int.le_refl _, by simp⟩
  | cons x rest ih =>
    rw [maxByKeyAux]
    by_cases h : key a ≤ key x
    · rw [if_pos h]
      obtain ⟨hmem, hle, hall⟩ := ih x
      refine ⟨?_, Int.le_trans h hle, ?_⟩
      · rcases hmem with h' | h'
        · exact Or.inr (by simp [h'])
        · exact Or.inr (by simp [h'])
      · intro y hy
        rcases List.mem_cons.mp hy with rfl | hy'
        · exact hle
        · exact hall y hy'
    · rw [if_neg h]
      obtain ⟨hmem, hle, hall⟩ := ih a
      refine ⟨?_, hle, ?_⟩
      · rcases hmem with h' | h'
        · exact Or.inl h'
        · exact Or.inr (by simp [h'])
      · intro y hy
        rcases List.mem_cons.mp hy with rfl | hy'
        · exact Int.le_trans (Int.le_of_lt (not_le.mp h)) hle
        · exact hall y hy'

theorem maxByKeyLast_spec {β : Type _} {key : β → Int} {l : List β} {x : β}
    (h : maxByKeyLast key l = some x) : x ∈ l ∧ ∀ y ∈ l, key y ≤ key x := by
  match l, h with
  | a :: rest, h =>
    rw [maxByKeyLast] at h
    have hx : maxByKeyAux key a rest = x := by
      injection h
    obtain ⟨hmem, hle, hall⟩ := maxByKeyAux_spec key a rest
    rw [hx] at hmem hle hall
    refine ⟨?_, ?_⟩
    · rcases hmem with h' | h'
      · simp [h']
      · exact List.mem_cons_of_mem a h'
    · intro y hy
      rcases List.mem_cons.mp hy with rfl | hy'
      · exact hle
      · exact hall y hy'

theorem i32ofNat_small {n : Nat} (h : n < 2147483648) : i32ofNat n = n := by
  rw [i32ofNat]
  have hm : n % 4294967296 = n := Nat.mod_eq_of_lt (by omega)
  simp only [hm]
  rw [if_pos (by omega)]

theorem splitSep_length_le (sep : Char) (l : List Char) :
    (splitSep sep l).length ≤ l.length + 1 := by
  induction l with
  | nil => simp [splitSep]
  | cons c rest ih =>
    rw [splitSep]
    by_cases h : c = sep
    · simp only [if_pos h, List.length_cons]
      omega
    · rw [if_neg h]
      rcases hsp : splitSep sep rest with _ | ⟨l0, ls⟩
      · simp
      · rw [hsp] at ih
        simp only [List.length_cons] at ih ⊢
        omega

theorem to_vpath_length_le {u pre : FileUri} {p : List (List Char)}
    (h : FileUri.to_vpath u pre = some p) : p.length ≤ u.length := by
  rw [FileUri.to_vpath] at h
  split at h
  · exact absurd h (by simp)
  rename_i rest hdp
  rw [List.dropPrefix?_eq_some_iff] at hdp
  obtain ⟨p', hu, hp'⟩ := hdp
  split at h
  · have hp0 : p = [] := by simpa using h.symm
    simp [hp0]
  split at h
  · rename_i rest' _
    have hp'' : p = splitSep '/' rest' := by simpa using h.symm
    have hlen := splitSep_length_le '/' rest'
    have hul : u.length = p'.length + rest'.length + 1 := by simp [hu]; omega
    rw [hp'']
    omega
  · exact absurd h (by simp)

/-! ### Claim C2: longest-prefix workspace lookup, first-match project lookup -/

/-- First-match characterization of `findSome?`. -/
theorem findSome?_split {α β : Type _} {l : List α} {f : α → Option β} {b : β}
    (h : l.findSome? f = some b) :
    ∃ l1 x l2, l = l1 ++ x :: l2 ∧ f x = some b ∧ ∀ y ∈ l1, f y = none := by
  induction l with
  | nil => simp at h
  | cons a rest ih =>
    rw [List.findSome?_cons] at h
    cases hfa : f a with
    | some v =>
      rw [hfa] at h
      refine ⟨[], a, rest, by simp, ?_, by simp⟩
      rw [hfa]; simpa using h
    | none =>
      rw [hfa] at h
      obtain ⟨l1, x, l2, hsplit, hfx, hnone⟩ := ih h
      refine ⟨a :: l1, x, l2, by simp [hsplit], hfx, ?_⟩
      intro y hy
      rcases List.mem_cons.mp hy with rfl | hy'
      · exact hfa
      · exact hnone y hy'

/-- A workspace with a project at the workspace root and one at `a`:
`get_proj` takes the first matching project, not the longest one. -/
def demoWspNested : CtxWsp :=
  { name := ['w'], basepath := ['w'], projects := [⟨[]⟩, ⟨[['a']]⟩] }

/-- Counterexample to C2 as stated: in a workspace whose project list is
`[root, a]`, the path `a/x` is matched by `get_proj` to the *root*
project (the first whose path is a prefix), although the project at `a`
is also a prefix and is strictly longer — so `get_proj` is not a
longest-prefix lookup. -/
theorem get_proj_first_match_counterexample :
    CtxWsp.get_proj demoWspNested [['a'], ['x']] = some ([['a'], ['x']], ⟨[]⟩) ∧
    CtxProj.path_in ⟨[['a']]⟩ [['a'], ['x']] = some [['x']] ∧
    (⟨[['a']]⟩ : CtxProj) ∈ demoWspNested.projects ∧
    (⟨[]⟩ : CtxProj).path.length < (⟨[['a']]⟩ : CtxProj).path.length := by
  refine ⟨by decide, by decide, by decide, by decide⟩

/-- Workspaces rooted at `/a` and `/a/b` (inner URI strings `a` and
`a/b`), for the spec's longest-prefix example. -/
def demoWspA : CtxWsp := { name := ['A'], basepath := ['a'], projects := [⟨[]⟩] }

def demoWspAB : CtxWsp :=
  { name := ['B'], basepath := ['a', '/', 'b'], projects := [⟨[]⟩] }

def demoCtx : WorkspaceCtx := { wsps := [demoWspA, demoWspAB] }

/-- Claim C2 as amended: `get_wsp` returns the workspace whose basepath
is the longest prefix of the URI (fewest remaining segments; the
`as i32` cast in the sort key is the identity because a remainder never
has more segments than the URI has bytes, kept below `2^31`); within
that workspace `get_proj` returns the *first* project in insertion order
whose path is a prefix of the remaining path — not the longest, see the
counterexample (for project lists produced by `find_all_projects` no
project path is a proper prefix of another, so at most one project
matches and the two descriptions coincide); in particular, given
workspaces at `/a` and `/a/b`, the URI `/a/b/x.orc` resolves to the
`/a/b` workspace. -/
theorem workspace_lookup_spec :
    (∀ (ctx : WorkspaceCtx) (uri : FileUri) (p : VPath) (w : CtxWsp),
      uri.length < 2147483648 →
      ctx.get_wsp uri = some (p, w) →
      w ∈ ctx.wsps ∧ w.path_in uri = some p ∧
        ∀ w' ∈ ctx.wsps, ∀ p', w'.path_in uri = some p' → p.length ≤ p'.length) ∧
    (∀ (w : CtxWsp) (p r : VPath) (proj : CtxProj),
      w.get_proj p = some (r, proj) →
      ∃ l1 l2, w.projects = l1 ++ proj :: l2 ∧ proj.path_in p = some r ∧
        ∀ q ∈ l1, q.path_in p = none) ∧
    WorkspaceCtx.get_wsp demoCtx ['a', '/', 'b', '/', 'x'] = some ([['x']], demoWspAB) := by
  refine ⟨?_, ?_, by decide⟩
  · intro ctx uri p w hbound hget
    rw [WorkspaceCtx.get_wsp] at hget
    obtain ⟨hmem, hall⟩ := maxByKeyLast_spec hget
    rw [List.mem_filterMap] at hmem
    obtain ⟨w0, hw0, hf⟩ := hmem
    cases hpath : CtxWsp.path_in w0 uri with
    | none => rw [hpath] at hf; exact absurd hf (by simp)
    | some p0 =>
      rw [hpath] at hf
      have hf' : (p0, w0) = (p, w) := by simpa using hf
      injection hf' with hf1 hf2
      subst hf1
      subst hf2
      refine ⟨hw0, hpath, ?_⟩
      intro w' hw' p' hp'
      have hcand : (p', w') ∈ ctx.wsps.filterMap
          (fun w => (w.path_in uri).map (fun p => (p, w))) := by
        rw [List.mem_filterMap]
        exact ⟨w', hw', by rw [show CtxWsp.path_in w' uri = some p' from hp']; rfl⟩
      have hkey := hall (p', w') hcand
      have hb1 : p'.length < 2147483648 :=
        Nat.lt_of_le_of_lt (to_vpath_length_le hp') hbound
      have hb2 : p0.length < 2147483648 :=
        Nat.lt_of_le_of_lt (to_vpath_length_le hpath) hbound
      rw [i32ofNat_small hb1, i32ofNat_small hb2] at hkey
      have hkey' : (p0.length : Int) ≤ (p'.length : Int) := by omega
      exact_mod_cast hkey'
  · intro w p r proj hget
    rw [CtxWsp.get_proj] at hget
    obtain ⟨l1, x, l2, hsplit, hfx, hnone⟩ := findSome?_split hget
    cases hpi : CtxProj.path_in x p with
    | none => rw [hpi] at hfx; exact absurd hfx (by simp)
    | some r0 =>
      rw [hpi] at hfx
      have hfx' : (r0, x) = (r, proj) := by simpa using hfx
      injection hfx' with hg1 hg2
      subst hg1
      subst hg2
      refine ⟨l1, l2, hsplit, hpi, ?_⟩
      intro q hq
      have hqn := hnone q hq
      cases hpq : CtxProj.path_in q p with
      | none => rfl
      | some rq => rw [hpq] at hqn; exact absurd hqn (by simp)

/-- Witness for the amended C2 at the spec's example: the longest-prefix
conclusion of `get_wsp` instantiated for workspaces `/a` and `/a/b` and
the URI `/a/b/x.orc`. -/
theorem workspace_lookup_spec_witness :
    demoWspAB ∈ demoCtx.wsps ∧
    CtxWsp.path_in demoWspAB ['a', '/', 'b', '/', 'x'] = some [['x']] ∧
    ∀ w' ∈ demoCtx.wsps, ∀ p',
      CtxWsp.path_in w' ['a', '/', 'b', '/', 'x'] = some p' →
      ([['x']] : VPath).length ≤ p'.length :=
  (workspace_lookup_spec).1 demoCtx ['a', '/', 'b', '/', 'x'] [['x']] demoWspAB
    (by decide) (by decide)

/-! ## The edit-driven analysis pipeline (src/server/src/cmd/fs.rs lines 184-272)

`process_update` spawns one worker thread per edit.  A worker runs two
critical sections under the session lock and an unlocked Phase 2 between
them:

* Phase 1 (fs.rs lines 195-214): patch the store, find the project,
  `proj.abort.abort()` on the project's current token, install a fresh
  token (`proj.abort = abort.clone()`), record the changed path.
* Phase 3 (fs.rs lines 242-269): `if !abort.is_valid() { return; }` —
  publish the `client/syntacticTokens` notifications only when the
  worker's own token is still unsignalled, i.e. still the project's
  current token.

The embedding models one project's shared state and the interleaving of
workers' critical sections (the lock makes each section atomic; Phase 2
touches no shared state, and a worker that observes its abort during
Phase 2 simply never reaches Phase 3, which the trace model allows by
leaving out its Phase 3 event).  Workers are numbered 1, 2, …; token
identity is identified with the worker that installed it, with 0 the
token allocated at project discovery (`CtxProj::new`). -/

/-- A critical section of one worker: its Phase 1 or its Phase 3. -/
inductive PipeEv where
  | p1 (w : Nat)
  | p3 (w : Nat)
  deriving DecidableEq

/-- The per-project shared state: `cur` identifies the token currently
stored in `proj.abort`; `aborted` lists the tokens whose flag was set;
`pubs` records, in order, the workers whose Phase 3 published. -/
structure PipeState where
  cur : Nat
  aborted : List Nat
  pubs : List Nat
  deriving DecidableEq

/-- The state at project discovery: the initial token 0, unsignalled,
nothing published. -/
def initPipe : PipeState := { cur := 0, aborted := [], pubs := [] }

/-- One critical section: Phase 1 signals the current token and
installs the worker's fresh one; Phase 3 publishes exactly when the
worker's token is not signalled (`abort.is_valid()`). -/
def pipeStep (s : PipeState) : PipeEv → PipeState
  | .p1 w => { cur := w, aborted := s.cur :: s.aborted, pubs := s.pubs }
  | .p3 w => if w ∈ s.aborted then s else { s with pubs := s.pubs ++ [w] }

/-- Run a whole interleaving. -/
def runPipe (t : List PipeEv) : PipeState := t.foldl pipeStep initPipe

/-- The worker performing an event. -/
def evWorker : PipeEv → Nat
  | .p1 w => w
  | .p3 w => w

/-- Every Phase 3 is preceded by the same worker's Phase 1 (`seen`
accumulates the workers whose Phase 1 occurred). -/
def p1Before (seen : List Nat) : List PipeEv → Bool
  | [] => true
  | .p1 w :: rest => p1Before (w :: seen) rest
  | .p3 w :: rest => seen.contains w && p1Before seen rest

/-- Well-formed interleavings: no critical section happens twice, each
worker's Phase 3 follows its Phase 1, and worker ids are positive
(0 is the discovery token). -/
def wfTrace (t : List PipeEv) : Prop :=
  t.Nodup ∧ p1Before [] t = true ∧ ∀ e ∈ t, 1 ≤ evWorker e

instance (t : List PipeEv) : Decidable (wfTrace t) := by
  unfold wfTrace; infer_instance

/-- `a` occurs strictly before `b` in the trace. -/
def seqBefore (t : List PipeEv) (a b : PipeEv) : Prop :=
  ∃ (i j : Nat) (hi : i < t.length) (hj : j < t.length), i < j ∧ t[i] = a ∧ t[j] = b

/-- `a`, `b`, `c` occur in this order in the trace. -/
def seqBetween (t : List PipeEv) (a b c : PipeEv) : Prop :=
  ∃ (i j k : Nat) (hi : i < t.length) (hj : j < t.length) (hk : k < t.length),
    i < j ∧ j < k ∧ t[i] = a ∧ t[j] = b ∧ t[k] = c

theorem seqBefore_mono {t : List PipeEv} {a b e : PipeEv} (h : seqBefore t a b) :
    seqBefore (t ++ [e]) a b := by
  obtain ⟨i, j, hi, hj, hij, ha, hb⟩ := h
  refine ⟨i, j, by simp; omega, by simp; omega, hij, ?_, ?_⟩
  · rw [List.getElem_append_left hi]; exact ha
  · rw [List.getElem_append_left hj]; exact hb

theorem seqBefore_append_last {t : List PipeEv} {a : PipeEv} (e : PipeEv) (h : a ∈ t) :
    seqBefore (t ++ [e]) a e := by
  obtain ⟨i, hi, ha⟩ := List.getElem_of_mem h
  refine ⟨i, t.length, by simp; omega, by simp, by omega, ?_, ?_⟩
  · rw [List.getElem_append_left hi]; exact ha
  · rw [List.getElem_append_right (Nat.le_refl _)]
    simp

theorem seqBefore_append_cases {t : List PipeEv} {a b e : PipeEv}
    (h : seqBefore (t ++ [e]) a b) : seqBefore t a b ∨ (b = e ∧ a ∈ t) := by
  obtain ⟨i, j, hi, hj, hij, ha, hb⟩ := h
  rw [List.length_append, List.length_singleton] at hi hj
  by_cases hjlen : j < t.length
  · have hilen : i < t.length := by omega
    rw [List.getElem_append_left hilen] at ha
    rw [List.getElem_append_left hjlen] at hb
    exact Or.inl ⟨i, j, hilen, hjlen, hij, ha, hb⟩
  · have hjeq : j = t.length := by omega
    have hilen : i < t.length := by omega
    rw [List.getElem_append_left hilen] at ha
    subst hjeq
    rw [List.getElem_append_right (Nat.le_refl _)] at hb
    simp at hb
    exact Or.inr ⟨hb.symm, ha ▸ List.getElem_mem hilen⟩

theorem seqBefore_mem {t : List PipeEv} {a b : PipeEv} (h : seqBefore t a b) :
    a ∈ t ∧ b ∈ t := by
  obtain ⟨i, j, hi, hj, _, ha, hb⟩ := h
  exact ⟨ha ▸ List.getElem_mem hi, hb ▸ List.getElem_mem hj⟩

theorem seqBetween_mono {t : List PipeEv} {a b c e : PipeEv} (h : seqBetween t a b c) :
    seqBetween (t ++ [e]) a b c := by
  obtain ⟨i, j, k, hi, hj, hk, hij, hjk, ha, hb, hc⟩ := h
  refine ⟨i, j, k, by simp; omega, by simp; omega, by simp; omega, hij, hjk, ?_, ?_, ?_⟩
  · rw [List.getElem_append_left hi]; exact ha
  · rw [List.getElem_append_left hj]; exact hb
  · rw [List.getElem_append_left hk]; exact hc

theorem seqBetween_append_cases {t : List PipeEv} {a b c e : PipeEv}
    (h : seqBetween (t ++ [e]) a b c) : seqBetween t a b c ∨ (c = e ∧ seqBefore t a b) := by
  obtain ⟨i, j, k, hi, hj, hk, hij, hjk, ha, hb, hc⟩ := h
  rw [List.length_append, List.length_singleton] at hi hj hk
  by_cases hklen : k < t.length
  · have hilen : i < t.length := by omega
    have hjlen : j < t.length := by omega
    rw [List.getElem_append_left hilen] at ha
    rw [List.getElem_append_left hjlen] at hb
    rw [List.getElem_append_left hklen] at hc
    exact Or.inl ⟨i, j, k, hilen, hjlen, hklen, hij, hjk, ha, hb, hc⟩
  · have hkeq : k = t.length := by omega
    have hilen : i < t.length := by omega
    have hjlen : j < t.length := by omega
    rw [List.getElem_append_left hilen] at ha
    rw [List.getElem_append_left hjlen] at hb
    subst hkeq
    rw [List.getElem_append_right (Nat.le_refl _)] at hc
    simp at hc
    exact Or.inr ⟨hc.symm, i, j, hilen, hjlen, hij, ha, hb⟩

theorem seqBetween_of_before {t : List PipeEv} {a b : PipeEv} (e : PipeEv)
    (h : seqBefore t a b) : seqBetween (t ++ [e]) a b e := by
  obtain ⟨i, j, hi, hj, hij, ha, hb⟩ := h
  refine ⟨i, j, t.length, by simp; omega, by simp; omega, by simp, hij, by omega, ?_, ?_, ?_⟩
  · rw [List.getElem_append_left hi]; exact ha
  · rw [List.getElem_append_left hj]; exact hb
  · rw [List.getElem_append_right (Nat.le_refl _)]
    simp

theorem seqBetween_mem_last {t : List PipeEv} {a b c : PipeEv} (h : seqBetween t a b c) :
    c ∈ t := by
  obtain ⟨i, j, k, hi, hj, hk, _, _, _, _, hc⟩ := h
  exact hc ▸ List.getElem_mem hk

/-- The workers whose Phase 1 occurs in a trace, on top of `seen`. -/
def collectP1 (seen : List Nat) : List PipeEv → List Nat
  | [] => seen
  | .p1 w :: rest => collectP1 (w :: seen) rest
  | .p3 _ :: rest => collectP1 seen rest

theorem p1Before_append (seen : List Nat) (xs ys : List PipeEv) :
    p1Before seen (xs ++ ys) = (p1Before seen xs && p1Before (collectP1 seen xs) ys) := by
  induction xs generalizing seen with
  | nil => simp [p1Before, collectP1]
  | cons e rest ih =>
    cases e with
    | p1 w =>
      simp only [List.cons_append, p1Before, collectP1, List.append_eq]
      exact ih _
    | p3 w =>
      simp only [List.cons_append, p1Before, collectP1, List.append_eq, ih, Bool.and_assoc]

theorem mem_collectP1 {seen : List Nat} {xs : List PipeEv} {w : Nat} :
    w ∈ collectP1 seen xs ↔ w ∈ seen ∨ PipeEv.p1 w ∈ xs := by
  induction xs generalizing seen with
  | nil => simp [collectP1]
  | cons e rest ih =>
    cases e with
    | p1 v =>
      rw [collectP1, ih]
      constructor
      · rintro (hv | hrest)
        · rcases List.mem_cons.mp hv with rfl | hseen
          · exact Or.inr (by simp)
          · exact Or.inl hseen
        · exact Or.inr (by simp [hrest])
      · rintro (hseen | hmem)
        · exact Or.inl (by simp [hseen])
        · rcases List.mem_cons.mp hmem with heq | hrest
          · injection heq with h
            subst h
            exact Or.inl (by simp)
          · exact Or.inr hrest
    | p3 v =>
      rw [collectP1, ih]
      constructor
      · rintro (hseen | hrest)
        · exact Or.inl hseen
        · exact Or.inr (by simp [hrest])
      · rintro (hseen | hmem)
        · exact Or.inl hseen
        · rcases List.mem_cons.mp hmem with heq | hrest
          · exact absurd heq (by simp)
          · exact Or.inr hrest

theorem p1Before_p3_mem {seen : List Nat} {t : List PipeEv} {w : Nat}
    (h : p1Before seen t = true) (hmem : PipeEv.p3 w ∈ t) :
    w ∈ seen ∨ PipeEv.p1 w ∈ t := by
  induction t generalizing seen with
  | nil => simp at hmem
  | cons e rest ih =>
    cases e with
    | p1 v =>
      rw [p1Before] at h
      rcases List.mem_cons.mp hmem with heq | hrest
      · exact absurd heq (by simp)
      · rcases ih h hrest with hseen | hmem'
        · rcases List.mem_cons.mp hseen with rfl | hseen'
          · exact Or.inr (by simp)
          · exact Or.inl hseen'
        · exact Or.inr (by simp [hmem'])
    | p3 v =>
      rw [p1Before, Bool.and_eq_true] at h
      rcases List.mem_cons.mp hmem with heq | hrest
      · have hv : w = v := by simpa using heq
        subst hv
        exact Or.inl (by simpa using h.1)
      · rcases ih h.2 hrest with hseen | hmem'
        · exact Or.inl hseen
        · exact Or.inr (by simp [hmem'])

theorem wfTrace_append {T : List PipeEv} {e : PipeEv} (h : wfTrace (T ++ [e])) :
    wfTrace T ∧ e ∉ T ∧ 1 ≤ evWorker e ∧ ∀ v, e = PipeEv.p3 v → PipeEv.p1 v ∈ T := by
  obtain ⟨hnd, hp1, hwk⟩ := h
  rw [List.nodup_append] at hnd
  obtain ⟨hndT, -, hdisj⟩ := hnd
  rw [p1Before_append, Bool.and_eq_true] at hp1
  refine ⟨⟨hndT, hp1.1, fun x hx => hwk x (by simp [hx])⟩, ?_, hwk e (by simp), ?_⟩
  · intro hmem
    exact hdisj hmem (by simp)
  · intro v hv
    subst hv
    have := hp1.2
    rw [p1Before, Bool.and_eq_true] at this
    have hv' : v ∈ collectP1 [] T := by simpa using this.1
    rcases mem_collectP1.mp hv' with habs | hmem
    · simp at habs
    · exact hmem

/-- The invariant tying the shared state to the trace so far:
1. `cur` is the worker of the last Phase 1 (or 0 before any edit);
2. a token is signalled exactly when a later Phase 1 superseded it
   (token 0: when any edit arrived);
3. nobody published across an intervening Phase 1;
4. publications are ordered by Phase 1 order;
5. every publisher's Phase 1 is no later than the current token's;
6. every publisher's Phase 3 is in the trace. -/
def PipeInv (T : List PipeEv) (s : PipeState) : Prop :=
  ((s.cur = 0 ∧ ∀ w, PipeEv.p1 w ∉ T) ∨
    (1 ≤ s.cur ∧ PipeEv.p1 s.cur ∈ T ∧
      ∀ w, PipeEv.p1 w ∈ T → w = s.cur ∨ seqBefore T (.p1 w) (.p1 s.cur))) ∧
  (∀ w, w ∈ s.aborted ↔
    ((w = 0 ∧ ∃ j, PipeEv.p1 j ∈ T) ∨ ∃ j, seqBefore T (.p1 w) (.p1 j))) ∧
  (∀ w ∈ s.pubs, ∀ j, ¬ seqBetween T (.p1 w) (.p1 j) (.p3 w)) ∧
  s.pubs.Pairwise (fun a b => seqBefore T (.p1 a) (.p1 b)) ∧
  (∀ w ∈ s.pubs, w = s.cur ∨ seqBefore T (.p1 w) (.p1 s.cur)) ∧
  (∀ w ∈ s.pubs, PipeEv.p3 w ∈ T)

theorem pipeInv_nil : PipeInv [] initPipe := by
  refine ⟨Or.inl ⟨rfl, by simp⟩, ?_, ?_, ?_, ?_, ?_⟩
  · intro w
    simp only [initPipe, List.not_mem_nil, false_iff]
    rintro (⟨-, j, hj⟩ | ⟨j, hj⟩)
    · simp at hj
    · exact absurd (seqBefore_mem hj).1 (by simp)
  · intro w hw
    simp [initPipe] at hw
  · simp [initPipe]
  · intro w hw
    simp [initPipe] at hw
  · intro w hw
    simp [initPipe] at hw

theorem pipeInv_step_p1 {T : List PipeEv} {v : Nat} {s : PipeState}
    (hinv : PipeInv T s) (hv1 : 1 ≤ v) (hwfT : wfTrace T) :
    PipeInv (T ++ [PipeEv.p1 v]) (pipeStep s (PipeEv.p1 v)) := by
  obtain ⟨hA, hB, hD, hE, hF, hG⟩ := hinv
  rw [pipeStep]
  refine ⟨?_, ?_, ?_, ?_, ?_, ?_⟩
  · -- cur is the last Phase 1
    refine Or.inr ⟨hv1, by simp, ?_⟩
    intro w hw
    rcases List.mem_append.mp hw with hwT | hwE
    · exact Or.inr (seqBefore_append_last _ hwT)
    · simp at hwE
      exact Or.inl hwE
  · -- the signalled tokens
    intro w
    simp only [List.mem_cons]
    constructor
    · rintro (rfl | hab)
      · -- the token that was current got signalled
        rcases hA with ⟨h0, -⟩ | ⟨-, hmemc, -⟩
        · exact Or.inl ⟨h0, v, by simp⟩
        · exact Or.inr ⟨v, seqBefore_append_last _ hmemc⟩
      · rcases (hB w).mp hab with ⟨h0, j, hj⟩ | ⟨j, hj⟩
        · exact Or.inl ⟨h0, j, by simp [hj]⟩
        · exact Or.inr ⟨j, seqBefore_mono hj⟩
    · rintro (⟨rfl, j, hj⟩ | ⟨j, hj⟩)
      · rcases List.mem_append.mp hj with hjT | hjE
        · -- token 0 was already signalled if an edit preceded
          exact Or.inr ((hB 0).mpr (Or.inl ⟨rfl, j, hjT⟩))
        · -- first edit: the current token is the discovery token 0
          rcases hA with ⟨h0, -⟩ | ⟨-, hmemc, -⟩
          · exact Or.inl h0.symm
          · exact Or.inr ((hB 0).mpr (Or.inl ⟨rfl, _, hmemc⟩))
      · rcases seqBefore_append_cases hj with hjT | ⟨hje, hwT⟩
        · exact Or.inr ((hB w).mpr (Or.inr ⟨j, hjT⟩))
        · -- the appended event ends the pair: w's Phase 1 is in T
          rcases hA with ⟨-, hnop⟩ | ⟨-, -, hlast⟩
          · exact absurd hwT (hnop w)
          · rcases hlast w hwT with rfl | hsb
            · exact Or.inl rfl
            · exact Or.inr ((hB w).mpr (Or.inr ⟨s.cur, hsb⟩))
  · -- no publication across an intervening Phase 1
    intro w hw j hbet
    rcases seqBetween_append_cases hbet with hbT | ⟨hce, -⟩
    · exact hD w hw j hbT
    · exact absurd hce (by simp)
  · exact hE.imp (fun h => seqBefore_mono h)
  · -- every publisher's Phase 1 precedes the fresh token's
    intro w hw
    rcases hF w hw with rfl | hsb
    · rcases hA with ⟨h0, hnop⟩ | ⟨-, hmemc, -⟩
      · -- no edit yet, so nothing was published
        have h3 : PipeEv.p3 s.cur ∈ T := hG s.cur hw
        rcases p1Before_p3_mem hwfT.2.1 h3 with habs | hmem
        · simp at habs
        · exact absurd hmem (hnop s.cur)
      · exact Or.inr (seqBefore_append_last _ hmemc)
    · exact Or.inr (seqBefore_append_last _ (seqBefore_mem hsb).1)
  · intro w hw
    exact List.mem_append_left _ (hG w hw)

theorem pipeInv_step_p3 {T : List PipeEv} {v : Nat} {s : PipeState}
    (hinv : PipeInv T s) (hfresh : PipeEv.p3 v ∉ T) (hp1v : PipeEv.p1 v ∈ T) :
    PipeInv (T ++ [PipeEv.p3 v]) (pipeStep s (PipeEv.p3 v)) := by
  obtain ⟨hA, hB, hD, hE, hF, hG⟩ := hinv
  -- a Phase 3 event leaves the token bookkeeping unchanged
  have hA' : (s.cur = 0 ∧ ∀ w, PipeEv.p1 w ∉ T ++ [PipeEv.p3 v]) ∨
      (1 ≤ s.cur ∧ PipeEv.p1 s.cur ∈ T ++ [PipeEv.p3 v] ∧
        ∀ w, PipeEv.p1 w ∈ T ++ [PipeEv.p3 v] →
          w = s.cur ∨ seqBefore (T ++ [PipeEv.p3 v]) (.p1 w) (.p1 s.cur)) := by
    rcases hA with ⟨h0, hnop⟩ | ⟨h1, hmemc, hlast⟩
    · refine Or.inl ⟨h0, fun w hw => ?_⟩
      rcases List.mem_append.mp hw with hwT | hwE
      · exact hnop w hwT
      · simp at hwE
    · refine Or.inr ⟨h1, List.mem_append_left _ hmemc, fun w hw => ?_⟩
      rcases List.mem_append.mp hw with hwT | hwE
      · exact (hlast w hwT).imp id seqBefore_mono
      · simp at hwE
  have hB' : ∀ w, w ∈ s.aborted ↔
      ((w = 0 ∧ ∃ j, PipeEv.p1 j ∈ T ++ [PipeEv.p3 v]) ∨
        ∃ j, seqBefore (T ++ [PipeEv.p3 v]) (.p1 w) (.p1 j)) := by
    intro w
    constructor
    · intro hab
      rcases (hB w).mp hab with ⟨h0, j, hj⟩ | ⟨j, hj⟩
      · exact Or.inl ⟨h0, j, List.mem_append_left _ hj⟩
      · exact Or.inr ⟨j, seqBefore_mono hj⟩
    · rintro (⟨h0, j, hj⟩ | ⟨j, hj⟩)
      · rcases List.mem_append.mp hj with hjT | hjE
        · exact (hB w).mpr (Or.inl ⟨h0, j, hjT⟩)
        · simp at hjE
      · rcases seqBefore_append_cases hj with hjT | ⟨hje, -⟩
        · exact (hB w).mpr (Or.inr ⟨j, hjT⟩)
        · exact absurd hje (by simp)
  have hDlift : ∀ w ∈ s.pubs, ∀ j,
      ¬ seqBetween (T ++ [PipeEv.p3 v]) (.p1 w) (.p1 j) (.p3 w) := by
    intro w hw j hbet
    rcases seqBetween_append_cases hbet with hbT | ⟨hce, -⟩
    · exact hD w hw j hbT
    · have hwv : w = v := by simpa using hce
      subst hwv
      exact hfresh (hG w hw)
  rw [pipeStep]
  by_cases hvab : v ∈ s.aborted
  · rw [if_pos hvab]
    refine ⟨hA', hB', hDlift, hE.imp (fun h => seqBefore_mono h), ?_, ?_⟩
    · intro w hw
      exact (hF w hw).imp id seqBefore_mono
    · intro w hw
      exact List.mem_append_left _ (hG w hw)
  · rw [if_neg hvab]
    -- a worker that reaches Phase 3 unsignalled holds the current token
    have hcur : v = s.cur := by
      rcases hA with ⟨-, hnop⟩ | ⟨-, -, hlast⟩
      · exact absurd hp1v (hnop v)
      · rcases hlast v hp1v with h | hsb
        · exact h
        · exact absurd ((hB v).mpr (Or.inr ⟨s.cur, hsb⟩)) hvab
    refine ⟨hA', hB', ?_, ?_, ?_, ?_⟩
    · -- the new publisher saw no intervening Phase 1
      intro w hw j hbet
      rcases List.mem_append.mp hw with hwold | hwnew
      · exact hDlift w hwold j hbet
      · simp at hwnew
        subst hwnew
        rcases seqBetween_append_cases hbet with hbT | ⟨-, hsb⟩
        · exact hfresh (seqBetween_mem_last hbT)
        · exact hvab ((hB w).mpr (Or.inr ⟨j, hsb⟩))
    · -- publications stay ordered by Phase 1 order
      rw [List.pairwise_append]
      refine ⟨hE.imp (fun h => seqBefore_mono h), List.pairwise_singleton _ _, ?_⟩
      intro a ha b hb
      simp only [List.mem_singleton] at hb
      subst hb
      rcases hF a ha with hcura | hsb
      · exact absurd (hG a ha) (by rw [hcura, ← hcur]; exact hfresh)
      · rw [← hcur] at hsb
        exact seqBefore_mono hsb
    · intro w hw
      rcases List.mem_append.mp hw with hwold | hwnew
      · exact (hF w hwold).imp id seqBefore_mono
      · simp at hwnew
        subst hwnew
        exact Or.inl hcur
    · intro w hw
      rcases List.mem_append.mp hw with hwold | hwnew
      · exact List.mem_append_left _ (hG w hwold)
      · simp at hwnew
        subst hwnew
        simp

theorem pipeInv_run (t : List PipeEv) (hwf : wfTrace t) : PipeInv t (runPipe t) := by
  induction t using List.reverseRecOn with
  | nil => exact pipeInv_nil
  | append_singleton T e ih =>
    obtain ⟨hwfT, hfresh, hwk, hp3⟩ := wfTrace_append hwf
    have hinv := ih hwfT
    rw [runPipe, List.foldl_append, List.foldl_cons, List.foldl_nil]
    cases e with
    | p1 v => exact pipeInv_step_p1 hinv hwk hwfT
    | p3 v => exact pipeInv_step_p3 hinv hfresh (hp3 v rfl)

/-! ### Claim C1: freshness of the publication protocol -/

/-- Claim C1: for a project, under any well-formed interleaving of the
workers' critical sections, (1) a worker's tokens are published in
Phase 3 only if no other worker's Phase 1 intervened between its own
Phase 1 and its Phase 3 — i.e. only while its abort token is still the
project's current one; (2) in particular, when edit `E_j` arrives
(its Phase 1 runs) during edit `E_i`'s Phase 2, `E_i`'s publication is
suppressed; and (3) the `client/syntacticTokens` publications are
emitted in the order of their originating edits' Phase 1 sections (the
order in which the edits reached the pipeline). -/
theorem pipeline_freshness (t : List PipeEv) (hwf : wfTrace t) :
    (∀ w ∈ (runPipe t).pubs, ∀ j,
      ¬ seqBetween t (.p1 w) (.p1 j) (.p3 w)) ∧
    (∀ i j, seqBetween t (.p1 i) (.p1 j) (.p3 i) → i ∉ (runPipe t).pubs) ∧
    (runPipe t).pubs.Pairwise (fun a b => seqBefore t (.p1 a) (.p1 b)) := by
  obtain ⟨-, -, hD, hE, -, -⟩ := pipeInv_run t hwf
  exact ⟨hD, fun i j hbet hmem => hD i hmem j hbet, hE⟩

/-- Witness for C1 on the adversarial schedule of the spec: edits 1 and
2 both run Phase 1, then worker 1 attempts Phase 3 (suppressed: worker
2's Phase 1 intervened), then worker 2 publishes.  Only worker 2's
tokens go out. -/
theorem pipeline_freshness_witness :
    (runPipe [PipeEv.p1 1, .p1 2, .p3 1, .p3 2]).pubs = [2] ∧
    1 ∉ (runPipe [PipeEv.p1 1, .p1 2, .p3 1, .p3 2]).pubs := by
  refine ⟨by decide, ?_⟩
  exact (pipeline_freshness [.p1 1, .p1 2, .p3 1, .p3 2] (by decide)).2.1 1 2
    ⟨0, 1, 2, by decide, by decide, by decide, by decide, by decide, rfl, rfl, rfl⟩

/-! ### Claim C10: empty-input panics and the pipeline's guard -/

/-- Claim C10: both position converters panic when given an empty input
collection, for every text (they unconditionally take the first sorted
element); the transcription inherits the panic on an empty token list;
and the pipeline's only transcription call is guarded by an emptiness
check, so the guarded step returns an empty record list instead of
panicking. -/
theorem transcription_empty_guard :
    (∀ (α : Type) (text : List Char), docpos2bpos (α := α) [] text = none) ∧
    (∀ (α : Type) (text : List Char), bpos2docpos (α := α) [] text = none) ∧
    (∀ src : List Char, transcode_tokens [] src = none) ∧
    (∀ src : List Char, phase2FileTokens [] src = some []) := by
  refine ⟨?_, ?_, ?_, ?_⟩
  · intro α text
    by_cases h : text.contains '\r' <;> simp [docpos2bpos, h]
  · intro α text
    by_cases h : text.contains '\r' <;> simp [bpos2docpos, h]
  · intro src
    rfl
  · intro src
    rfl

end OrchidLs
